import Mathlib

set_option maxHeartbeats 1000000

namespace Chronicler

/-! Shallow embedding of the chronicler indexing engine and rendering pipeline
(src-tauri/src: parser.rs, indexer.rs, renderer.rs, world.rs, utils.rs, models.rs).
Strings from the Rust side are modelled as Lean Strings; character level scanning
works on List Char. HashMap and HashSet state is modelled by association lists and
lists with a determinized iteration order. -/

/-! Basic character list utilities. -/

/-- Whitespace test covering the ASCII whitespace relevant to the embedded scanners. -/
def isWsC (c : Char) : Bool := c = ' ' || c = '\t' || c = '\n' || c = '\r'

/-- ASCII lowercasing of a character list, modelling Rust string lowercasing on ASCII input. -/
def lowerCL (s : List Char) : List Char := s.map Char.toLower

/-- Lowercase a String, modelling Rust to_lowercase. -/
def lowerStr (s : String) : String := String.mk (lowerCL s.data)

/-- Trim both ends, modelling Rust str trim. -/
def trimCL (s : List Char) : List Char := ((s.dropWhile isWsC).reverse.dropWhile isWsC).reverse

/-- Boolean test that pat is an initial segment of s. -/
def isPre : List Char → List Char → Bool
  | [], _ => true
  | _ :: _, [] => false
  | a :: as, b :: bs => if a = b then isPre as bs else false

/-- Boolean test that pat is a final segment of s. -/
def isSuf (pat s : List Char) : Bool := isPre pat.reverse s.reverse

/-- Removes pat from the front of s when it is an initial segment, modelling Rust strip with a pattern at the front. -/
def dropPre? : List Char → List Char → Option (List Char)
  | [], s => some s
  | _ :: _, [] => none
  | a :: as, b :: bs => if a = b then dropPre? as bs else none

/-- Index of the first occurrence of pat inside s, modelling Rust str find. -/
def findSub (pat : List Char) : List Char → Option Nat
  | [] => if isPre pat [] then some 0 else none
  | c :: rest => if isPre pat (c :: rest) then some 0 else (findSub pat rest).map (· + 1)

/-- Removes one trailing carriage return, modelling a strip of a CR at the end. -/
def stripCR (s : List Char) : List Char :=
  if s.getLast? = some ('\r') then s.dropLast else s

/-- Splits a character list at every occurrence of sep, modelling Rust split. -/
def splitOnC (sep : Char) : List Char → List (List Char)
  | [] => [[]]
  | c :: rest =>
    if c = sep then [] :: splitOnC sep rest
    else
      match splitOnC sep rest with
      | [] => [[c]]
      | l :: ls => (c :: l) :: ls

/-! Association list model of HashMap with String keys, and a list model of HashSet. -/

/-- Lookup in an association list, modelling HashMap get. -/
def alookup {V : Type} : List (String × V) → String → Option V
  | [], _ => none
  | (k1, v) :: rest, k => if k1 = k then some v else alookup rest k

/-- Insert or replace in an association list, modelling HashMap insert. -/
def aset {V : Type} : List (String × V) → String → V → List (String × V)
  | [], k, v => [(k, v)]
  | (k1, v1) :: rest, k, v => if k1 = k then (k, v) :: rest else (k1, v1) :: aset rest k v

/-- Lookup with a default, modelling the entry or-default pattern. -/
def agetD {V : Type} (m : List (String × V)) (k : String) (d : V) : V := (alookup m k).getD d

/-- Removes a key, modelling HashMap remove. -/
def aremove {V : Type} (m : List (String × V)) (k : String) : List (String × V) :=
  m.filter (fun kv => kv.1 != k)

/-- Adds an element to a set modelled as a list, modelling HashSet insert. -/
def sinsert (s : List String) (x : String) : List String := if x ∈ s then s else s ++ [x]

/-! Frontmatter extraction, embedding parser.rs extract_frontmatter. -/

/-- Helper for extract_frontmatter handling the text after a recognized opening delimiter:
locates the next occurrence of a newline followed by three dashes, strips a trailing CR from
the extracted frontmatter, and computes the body after the closing delimiter. -/
def extractFmAfter (content after_opening : List Char) : List Char × List Char :=
  match findSub (("\n---").toList) after_opening with
  | none => ([], content)
  | some closing_rel_pos =>
    let raw_frontmatter := after_opening.take closing_rel_pos
    let frontmatter := stripCR raw_frontmatter
    let rest_after_delimiter := after_opening.drop (closing_rel_pos + 4)
    let body :=
      match dropPre? (("\n").toList) rest_after_delimiter with
      | some b => b
      | none =>
        match dropPre? (("\r\n").toList) rest_after_delimiter with
        | some b => b
        | none => rest_after_delimiter
    (frontmatter, body)

/-- Embedding of parser.rs extract_frontmatter: splits raw content into the pair
(frontmatter, body). Content must open with a three dash line (LF or CRLF); with no
opener, or with no closing occurrence, the frontmatter is empty and the whole content
is the body. -/
def extract_frontmatter (content : List Char) : List Char × List Char :=
  match dropPre? (("---\n").toList) content with
  | some after_opening => extractFmAfter content after_opening
  | none =>
    match dropPre? (("---\r\n").toList) content with
    | some after_opening => extractFmAfter content after_opening
    | none => ([], content)

/-- The body computation after the closing delimiter, as extractFmAfter performs it on the
text that follows the four delimiter characters. -/
def bodyAfterClose (B : List Char) : List Char :=
  match dropPre? (("\n").toList) B with
  | some b => b
  | none =>
    match dropPre? (("\r\n").toList) B with
    | some b => b
    | none => B

/-! Structured values and the YAML mapping model. -/

/-- Model of serde json Value restricted to the shapes the embedded code produces and reads. -/
inductive Json where
  | null
  | str (s : String)
  | arr (xs : List Json)
  | obj (kvs : List (String × Json))

/-- Object field access, modelling serde json Value get. -/
def Json.get (j : Json) (key : String) : Option Json :=
  match j with
  | .obj kvs => alookup kvs key
  | _ => none

/-- String view of a value, modelling as str. -/
def Json.as_str : Json → Option String
  | .str s => some s
  | _ => none

/-- Array view of a value, modelling as array. -/
def Json.as_array : Json → Option (List Json)
  | .arr xs => some xs
  | _ => none

/-- Error kinds of the YAML model. -/
inductive YamlError where
  | duplicateKey (key : String)
  | badLine (line : String)
deriving DecidableEq

/-- Parses one mapping line of the YAML model: returns none for a malformed line,
some none for a blank line, and some (some pair) for a key colon value line. -/
def yamlLine (line : List Char) : Option (Option (String × Json)) :=
  let line2 := stripCR line
  if trimCL line2 = [] then some none
  else
    match findSub ((":").toList) line2 with
    | none => none
    | some i =>
      let key := trimCL (line2.take i)
      let val := trimCL (line2.drop (i + 1))
      some (some (String.mk key, Json.str (String.mk val)))

/-- Collects the key value pairs of all lines of the YAML model, failing on a malformed line. -/
def yamlPairs : List (List Char) → Except YamlError (List (String × Json))
  | [] => .ok []
  | l :: ls =>
    match yamlLine l with
    | none => .error (.badLine (String.mk l))
    | some none => yamlPairs ls
    | some (some kv) => (yamlPairs ls).map (fun rest => kv :: rest)

/-- First key that occurs more than once in a pair list. -/
def dupKey : List (String × Json) → Option String
  | [] => none
  | (k, _) :: rest => if k ∈ rest.map Prod.fst then some k else dupKey rest

/-- Modelled from the spec: the serde yaml Value parser (the serde yaml crate is an external
dependency, not under src). Spec 4.1: frontmatter is parsed as structured key value data and
duplicate keys at the same level are a hard parse error, never overwritten silently. The model
parses a flat mapping, one key colon value pair per line, and rejects duplicate keys; nested
mappings and non string scalars are outside the modelled subset. -/
def serde_yaml_from_str (s : List Char) : Except YamlError Json :=
  match yamlPairs (splitOnC ('\n') s) with
  | .error e => .error e
  | .ok kvs =>
    match dupKey kvs with
    | some k => .error (.duplicateKey k)
    | none => .ok (.obj kvs)

/-- Modelled from the spec: error.rs (not under src) defines the error kinds of section 7.
The fuelExhausted variant is an artifact of the fuel bounded embedding of recursive rendering
and is proved unreachable once the fuel exceeds the number of resolvable pages. -/
inductive ChroniclerError where
  | notADirectory (path : String)
  | fileTooLarge (path : String) (size maxSize : Nat)
  | yamlParseError (source : YamlError) (path : String)
  | fileNotFound (path : String)
  | invalidPath (path : String)
  | circularInsert (path : String)
  | ioError (msg : String)
  | fuelExhausted
deriving DecidableEq

/-- Display string of an error, modelling the to string conversion used for the parse error log. -/
def errString : ChroniclerError → String
  | .notADirectory p => ("not a directory: ") ++ p
  | .fileTooLarge p _ _ => ("file too large: ") ++ p
  | .yamlParseError _ p => ("YAML parse error in ") ++ p
  | .fileNotFound p => ("file not found: ") ++ p
  | .invalidPath p => ("invalid path: ") ++ p
  | .circularInsert p => ("circular insert: ") ++ p
  | .ioError m => m
  | .fuelExhausted => ("fuel exhausted")

/-- Embedding of parser.rs parse_frontmatter: an empty frontmatter string parses to the null
value; otherwise the YAML parser runs and its failure is wrapped with the path. -/
def parse_frontmatter (frontmatter_str : List Char) (path : String) : Except ChroniclerError Json :=
  if frontmatter_str = [] then .ok .null
  else
    match serde_yaml_from_str frontmatter_str with
    | .error e => .error (.yamlParseError e path)
    | .ok v => .ok v

/-! Path utilities, embedding utils.rs with paths modelled as strings. -/

/-- The component after the last slash, modelling Path file_name. -/
def fileNameCL (p : List Char) : List Char := (p.reverse.takeWhile (fun c => c ≠ '/')).reverse

/-- Index of the last occurrence of a character. -/
def lastIdxOf (c : Char) (s : List Char) : Option Nat :=
  match findSub [c] s.reverse with
  | none => none
  | some j => some (s.length - 1 - j)

/-- Stem of a file name: everything before the last dot, except that a sole leading dot is
part of the stem, modelling Path file_stem. -/
def stemCL (name : List Char) : List Char :=
  match lastIdxOf ('.') name with
  | some i => if i = 0 then name else name.take i
  | none => name

/-- Extension of a file name: everything after the last dot when that dot is not leading,
modelling Path extension. -/
def extensionCL (name : List Char) : Option (List Char) :=
  match lastIdxOf ('.') name with
  | some i => if i = 0 then none else some (name.drop (i + 1))
  | none => none

/-- Embedding of utils.rs file_stem_string. -/
def file_stem_string (path : String) : String := String.mk (stemCL (fileNameCL path.data))

/-- File name of a path as a string. -/
def file_name_string (path : String) : String := String.mk (fileNameCL path.data)

/-- Embedding of utils.rs is_markdown_file: the extension equals md ignoring ASCII case. -/
def is_markdown_file (p : String) : Bool :=
  match extensionCL (fileNameCL p.data) with
  | some e => lowerCL e = ("md").toList
  | none => false

/-- Embedding of utils.rs IMAGE_EXTENSIONS. -/
def IMAGE_EXTENSIONS : List String := [("png"), ("jpg"), ("jpeg"), ("gif"), ("webp"), ("svg")]

/-- Embedding of utils.rs is_image_file. -/
def is_image_file (p : String) : Bool :=
  match extensionCL (fileNameCL p.data) with
  | some e => IMAGE_EXTENSIONS.any (fun x => lowerCL e = x.data)
  | none => false

/-- Modelled from the spec: utils is_map_file is referenced by indexer.rs but absent from the
snapshot of utils.rs; indexer.rs elsewhere classifies map files by the map json filename
suffix, which this model follows. -/
def is_map_file (p : String) : Bool := isSuf ((".map.json").toList) p.data

/-! The document model, embedding models.rs. -/

/-- Embedding of models.rs Link. The section field of the source is named sect here because
that word is reserved in Lean. -/
structure Link where
  target : String
  sect : Option String := none
  aliasName : Option String := none
  position : Option (Nat × Nat) := none
deriving DecidableEq

/-- Embedding of models.rs Page; the tags and backlinks sets are modelled as lists. -/
structure Page where
  path : String := ("")
  title : String := ("")
  tags : List String := []
  links : List Link := []
  images : List String := []
  backlinks : List String := []
  frontmatter : Json := .null

/-- The default Page value, matching the Rust Default derivation. -/
def defaultPage : Page := {}

/-- Embedding of models.rs MapPin. -/
structure MapPin where
  target_page : Option String
deriving DecidableEq

/-- Embedding of models.rs MapRegion. -/
structure MapRegion where
  target_page : Option String
deriving DecidableEq

/-- Embedding of models.rs MapConfig. -/
structure MapConfig where
  title : String
  pins : Option (List MapPin) := none
  shapes : Option (List MapRegion) := none
deriving DecidableEq

/-- Embedding of models.rs VaultAsset. -/
inductive VaultAsset where
  | directory
  | page (p : Page)
  | image
  | map (c : MapConfig)

/-! Wikilink extraction. -/

/-- Parses the inside of a double bracket link into its target, section and alias parts. -/
def parseInner (inner : List Char) : Link :=
  let target := inner.takeWhile (fun c => c ≠ '#' && c ≠ '|')
  let rest := inner.dropWhile (fun c => c ≠ '#' && c ≠ '|')
  match rest with
  | '#' :: r2 =>
    let sect := r2.takeWhile (fun c => c ≠ '|')
    let r3 := r2.dropWhile (fun c => c ≠ '|')
    match r3 with
    | '|' :: al => { target := String.mk target, sect := some (String.mk sect), aliasName := some (String.mk al) }
    | _ => { target := String.mk target, sect := some (String.mk sect) }
  | '|' :: al => { target := String.mk target, aliasName := some (String.mk al) }
  | _ => { target := String.mk target }

/-- Recursion core of extract_wikilinks. The Rust loop advances a cursor strictly on every
step, so the recursion is bounded by the input length; the fuel argument makes that bound
structural, and the wrapper below supplies fuel covering the whole input. -/
def extractWikilinksFuel : Nat → List Char → List Link
  | 0, _ => []
  | _, [] => []
  | fuel + 1, c :: rest =>
    if isPre (("[[").toList) (c :: rest) then
      match findSub (("]]").toList) rest.tail with
      | some j =>
        if (rest.tail.take j).any (fun ch => ch = '[' || ch = ']') then
          extractWikilinksFuel fuel rest
        else parseInner (rest.tail.take j) :: extractWikilinksFuel fuel (rest.tail.drop (j + 2))
      | none => extractWikilinksFuel fuel rest
    else extractWikilinksFuel fuel rest

/-- Modelled from the spec: wikilink.rs extract_wikilinks (not under src). Spec 4.1 link
syntax: double bracket target with optional hash section and pipe alias, the parts excluding
brackets. Source positions are not modelled and remain none. -/
def extract_wikilinks (s : List Char) : List Link := extractWikilinksFuel (s.length + 1) s

/-! Image reference extraction, embedding parser.rs extract_images_and_clean_links. -/

/-- The single quote character. -/
def sQuote : Char := Char.ofNat 39

/-- First whitespace separated token of a list, or the whole list when there is none,
modelling split_whitespace next with the whole input as fallback. -/
def firstWsToken (s : List Char) : List Char :=
  let t := (s.dropWhile isWsC).takeWhile (fun c => ¬ isWsC c)
  if t = [] then s else t

/-- Scan for wikilink style embeds: a bang and double bracket up to the closing double
bracket, taking the part before a pipe, trimmed; embedding the first manual scan loop of
extract_images_and_clean_links. The fuel argument makes the strictly advancing cursor of
the Rust loop structural; the wrapper supplies fuel covering the whole input. -/
def scanEmbedsFuel : Nat → List Char → List String
  | 0, _ => []
  | _, [] => []
  | fuel + 1, c :: rest =>
    if isPre (("![[").toList) (c :: rest) then
      match findSub (("]]").toList) (c :: rest) with
      | some j =>
        if trimCL ((((c :: rest).take j).drop 3).takeWhile (fun ch => ch ≠ '|')) = [] then
          scanEmbedsFuel fuel ((c :: rest).drop (j + 2))
        else
          String.mk (trimCL ((((c :: rest).take j).drop 3).takeWhile (fun ch => ch ≠ '|')))
            :: scanEmbedsFuel fuel ((c :: rest).drop (j + 2))
      | none => scanEmbedsFuel fuel ((c :: rest).drop 3)
    else scanEmbedsFuel fuel rest

/-- Wrapper of scanEmbedsFuel with sufficient fuel. -/
def scanEmbeds (s : List Char) : List String := scanEmbedsFuel (s.length + 1) s

/-- Scan for standard markup images: a bang and bracketed alt part followed directly by a
parenthesized part whose first whitespace token is the url; embedding the second manual scan
loop of extract_images_and_clean_links, fuel bounded like scanEmbedsFuel. -/
def scanMdImagesFuel : Nat → List Char → List String
  | 0, _ => []
  | _, [] => []
  | fuel + 1, c :: rest =>
    if isPre (("![[").toList) (c :: rest) then scanMdImagesFuel fuel ((c :: rest).drop 3)
    else if isPre (("![").toList) (c :: rest) then
      match findSub (("]").toList) (c :: rest) with
      | some b =>
        if isPre (("(").toList) ((c :: rest).drop (b + 1)) then
          match findSub ((")").toList) ((c :: rest).drop (b + 2)) with
          | some pEnd =>
            if trimCL (firstWsToken (((c :: rest).drop (b + 2)).take pEnd)) = [] then
              scanMdImagesFuel fuel ((c :: rest).drop (b + 2 + pEnd + 1))
            else
              String.mk (trimCL (firstWsToken (((c :: rest).drop (b + 2)).take pEnd)))
                :: scanMdImagesFuel fuel ((c :: rest).drop (b + 2 + pEnd + 1))
          | none => scanMdImagesFuel fuel ((c :: rest).drop 2)
        else scanMdImagesFuel fuel ((c :: rest).drop 2)
      | none => scanMdImagesFuel fuel ((c :: rest).drop 2)
    else scanMdImagesFuel fuel rest

/-- Wrapper of scanMdImagesFuel with sufficient fuel. -/
def scanMdImages (s : List Char) : List String := scanMdImagesFuel (s.length + 1) s

/-- The src url of one img tag text, by the simple quote matched attribute scan of the Rust
code. -/
def imgTagSrc (tag : List Char) : Option (List Char) :=
  match findSub (("src=").toList) tag with
  | some i =>
    match tag.drop (i + 4) with
    | q :: qrest =>
      if q = '"' || q = sQuote then
        match findSub [q] qrest with
        | some close => if qrest.take close = [] then none else some (qrest.take close)
        | none => none
      else none
    | [] => none
  | none => none

/-- Scan for raw img tags, taking the quote matched src attribute value; embedding the third
manual scan loop of extract_images_and_clean_links, fuel bounded like scanEmbedsFuel. -/
def scanImgTagsFuel : Nat → List Char → List String
  | 0, _ => []
  | _, [] => []
  | fuel + 1, c :: rest =>
    if isPre (("<img").toList) (c :: rest) then
      match findSub ((">").toList) (c :: rest) with
      | some t =>
        match imgTagSrc ((c :: rest).take t) with
        | some url => String.mk url :: scanImgTagsFuel fuel ((c :: rest).drop (t + 1))
        | none => scanImgTagsFuel fuel ((c :: rest).drop (t + 1))
      | none => scanImgTagsFuel fuel ((c :: rest).drop 4)
    else scanImgTagsFuel fuel rest

/-- Wrapper of scanImgTagsFuel with sufficient fuel. -/
def scanImgTags (s : List Char) : List String := scanImgTagsFuel (s.length + 1) s

/-- Embedding of parser.rs extract_images_and_clean_links: collects image references from the
frontmatter image field, embed syntax, markup images and raw img tags, then filters the link
list, removing entries whose target matches a collected image ignoring ASCII case or ends in
a known image extension. Returns the images together with the retained links. -/
def extract_images_and_clean_links (content : List Char) (frontmatter : Json)
    (links : List Link) : List String × List Link :=
  let fmImg : List String :=
    match (frontmatter.get ("image")).bind Json.as_str with
    | some img => if trimCL img.data = [] then [] else [img]
    | none => []
  let images := fmImg ++ scanEmbeds content ++ scanMdImages content ++ scanImgTags content
  let image_extensions : List String :=
    [("png"), ("jpg"), ("jpeg"), ("gif"), ("bmp"), ("svg"), ("webp"), ("tiff"), ("ico")]
  let keep : Link → Bool := fun link =>
    let target_lower := lowerCL link.target.data
    if images.any (fun img => lowerCL img.data == lowerCL link.target.data) then false
    else if image_extensions.any (fun ext => isSuf (('.') :: ext.data) target_lower) then false
    else true
  (images, links.filter keep)

/-! File parsing, embedding parser.rs parse_file over a model filesystem. -/

/-- Modelled from the spec: config MAX_FILE_SIZE (config.rs is not under src); the configured
per file size limit, an arbitrary concrete bound here. -/
def MAX_FILE_SIZE : Nat := 1000000

/-- Model filesystem: file contents by path, plus the set of directories. -/
structure FS where
  files : List (String × List Char) := []
  dirs : List String := []

/-- Reads a file of the model filesystem. -/
def readFile (fs : FS) (p : String) : Option (List Char) := alookup fs.files p

/-- Embedding of parser.rs extract_tags_from_frontmatter; the HashSet of tags is modelled by
deduplication. -/
def extract_tags_from_frontmatter (fm : Json) : List String :=
  ((((fm.get ("tags")).bind Json.as_array).getD []).filterMap Json.as_str).dedup

/-- Embedding of parser.rs extract_title. -/
def extract_title (fm : Json) (path : String) : String :=
  match (fm.get ("title")).bind Json.as_str with
  | some t => t
  | none => file_stem_string path

/-- Embedding of parser.rs parse_file: enforces the size limit, splits and parses the
frontmatter, extracts tags, title, links and images and assembles the page. -/
def parse_file (fs : FS) (path : String) : Except ChroniclerError Page :=
  match readFile fs path with
  | none => .error (.ioError ("read failed"))
  | some content =>
    if MAX_FILE_SIZE < content.length then
      .error (.fileTooLarge path content.length MAX_FILE_SIZE)
    else
      match parse_frontmatter (extract_frontmatter content).1 path with
      | .error e => .error e
      | .ok frontmatter =>
        let tags := extract_tags_from_frontmatter frontmatter
        let title := extract_title frontmatter path
        let links0 := extract_wikilinks content
        let res := extract_images_and_clean_links content frontmatter links0
        .ok { path := path, title := title, tags := tags, links := res.2,
              images := res.1, backlinks := [], frontmatter := frontmatter }

/-! The index store, embedding indexer.rs. -/

/-- Embedding of the Indexer struct of indexer.rs; every HashMap is an association list and
every HashSet a list. -/
structure Indexer where
  root_path : Option String := none
  assets : List (String × VaultAsset) := []
  tags : List (String × List String) := []
  parse_errors : List (String × String) := []
  link_resolver : List (String × String) := []
  media_resolver : List (String × String) := []
  link_graph : List (String × List (String × List Link)) := []
  map_backlinks : List (String × List String) := []

/-- Embedding of the ScanResult helper struct of indexer.rs. -/
structure ScanResult where
  path : String
  asset : Option VaultAsset
  error : Option String

/-- Models dunce canonicalize: succeeds, returning the path itself, exactly when the path
exists in the model filesystem; symlink collapsing is not modelled. -/
def canonicalize (fs : FS) (p : String) : Option String :=
  if (readFile fs p).isSome || p ∈ fs.dirs then some p else none

/-- Modelled from the spec: serde json parsing of a map configuration file (an external
crate). Spec section 6 gives the JSON shape with title, pins and shapes; the model reads a
simple line format with a title line and pin or shape target lines. No claim settled here
depends on map file parsing succeeding. -/
def parse_map_config (s : List Char) : Except String MapConfig :=
  match splitOnC ('\n') s with
  | [] => .error ("empty map file")
  | titleLine :: rest =>
    match dropPre? (("title:").toList) titleLine with
    | none => .error ("missing title")
    | some t =>
      let pins := rest.filterMap (fun l =>
        (dropPre? (("pin:").toList) l).map (fun v => MapPin.mk (some (String.mk (trimCL v)))))
      let shapes := rest.filterMap (fun l =>
        (dropPre? (("shape:").toList) l).map (fun v => MapRegion.mk (some (String.mk (trimCL v)))))
      .ok { title := String.mk (trimCL t), pins := some pins, shapes := some shapes }

/-- Embedding of indexer.rs process_path: canonicalize, classify by extension, parse; a
markdown file that fails to parse still yields a default page with a stem derived title
together with the error message. -/
def process_path (fs : FS) (path : String) : ScanResult :=
  match canonicalize fs path with
  | none => { path := path, asset := none, error := some ("Canonicalization error") }
  | some canonical_path =>
    if is_markdown_file canonical_path then
      match parse_file fs canonical_path with
      | .ok page => { path := canonical_path, asset := some (.page page), error := none }
      | .error e =>
        let default_page : Page :=
          { defaultPage with path := canonical_path, title := file_stem_string canonical_path }
        { path := canonical_path, asset := some (.page default_page),
          error := some (errString e) }
    else if is_image_file canonical_path then
      { path := canonical_path, asset := some .image, error := none }
    else if is_map_file canonical_path then
      match readFile fs canonical_path with
      | some content =>
        match parse_map_config content with
        | .ok config => { path := canonical_path, asset := some (.map config), error := none }
        | .error e =>
          { path := canonical_path, asset := none, error := some (("Map parse error: ") ++ e) }
      | none =>
        { path := canonical_path, asset := none, error := some (("Could not read map file")) }
    else { path := canonical_path, asset := none, error := none }

/-! The relationship rebuilder, embedding indexer.rs rebuild_relations. -/

/-- Pass one of rebuild_relations: register every markdown stem in a fresh link resolver and
every image filename in a fresh media resolver, lowercased. -/
def pass1 (assets : List (String × VaultAsset)) :
    List (String × String) × List (String × String) :=
  assets.foldl
    (fun acc pa =>
      if is_markdown_file pa.1 then
        (aset acc.1 (lowerStr (file_stem_string pa.1)) pa.1, acc.2)
      else if is_image_file pa.1 then
        (acc.1, aset acc.2 (lowerStr (file_name_string pa.1)) pa.1)
      else acc)
    ([], [])

/-- Appends one resolved link instance to the link graph, modelling the nested entry
or-default push of rebuild_relations. -/
def addLink (g : List (String × List (String × List Link))) (src tgt : String) (l : Link) :
    List (String × List (String × List Link)) :=
  aset g src (aset (agetD g src []) tgt (agetD (agetD g src []) tgt [] ++ [l]))

/-- Processes the links of one page in pass two: resolve each link target, and on success
extend the link graph and the pending backlink sets. -/
def pass2Links (path : String) (lr : List (String × String)) :
    List Link → List (String × List (String × List Link)) × List (String × List String) →
    List (String × List (String × List Link)) × List (String × List String)
  | [], st => st
  | l :: ls, (g, b) =>
    match alookup lr (lowerStr l.target) with
    | some target_path =>
      pass2Links path lr ls
        (addLink g path target_path l, aset b target_path (sinsert (agetD b target_path []) path))
    | none => pass2Links path lr ls (g, b)

/-- Processes the tags of one page in pass two. -/
def pass2Tags (path : String) : List String → List (String × List String) →
    List (String × List String)
  | [], t => t
  | tag :: rest, t => pass2Tags path rest (aset t tag (sinsert (agetD t tag []) path))

/-- Processes the pin or region targets of one map in pass two. -/
def pass2MapTargets (path : String) (lr : List (String × String)) :
    List (Option String) → List (String × List String) → List (String × List String)
  | [], m => m
  | none :: rest, m => pass2MapTargets path lr rest m
  | some target :: rest, m =>
    match alookup lr (lowerStr target) with
    | some target_path =>
      pass2MapTargets path lr rest (aset m target_path (sinsert (agetD m target_path []) path))
    | none => pass2MapTargets path lr rest m

/-- Pass two of rebuild_relations over all assets, threading the tag map, the link graph, the
pending backlink sets and the map backlinks. -/
def pass2 (lr : List (String × String)) :
    List (String × VaultAsset) →
    List (String × List String) × List (String × List (String × List Link)) ×
      List (String × List String) × List (String × List String) →
    List (String × List String) × List (String × List (String × List Link)) ×
      List (String × List String) × List (String × List String)
  | [], st => st
  | (path, asset) :: rest, (t, g, b, m) =>
    match asset with
    | .page pg =>
      let t2 := pass2Tags path pg.tags t
      let gb := pass2Links path lr pg.links (g, b)
      pass2 lr rest (t2, gb.1, gb.2, m)
    | .map cfg =>
      let m2 := pass2MapTargets path lr ((cfg.pins.getD []).map MapPin.target_page) m
      let m3 := pass2MapTargets path lr ((cfg.shapes.getD []).map MapRegion.target_page) m2
      pass2 lr rest (t, g, b, m3)
    | _ => pass2 lr rest (t, g, b, m)

/-- Pass three of rebuild_relations: write every page its pending backlink set, removing the
entry as the iteration proceeds, exactly as the Rust remove with empty default. -/
def applyBacklinks : List (String × VaultAsset) → List (String × List String) →
    List (String × VaultAsset)
  | [], _ => []
  | (path, asset) :: rest, b =>
    match asset with
    | .page pg =>
      (path, .page { pg with backlinks := agetD b path [] }) :: applyBacklinks rest (aremove b path)
    | a => (path, a) :: applyBacklinks rest b

/-- Embedding of indexer.rs rebuild_relations: a total recomputation of resolvers, tags, link
graph, backlinks and map backlinks from the current assets, swapped into the store at the end. -/
def rebuild_relations (idx : Indexer) : Indexer :=
  let lrmr := pass1 idx.assets
  let tgbm := pass2 lrmr.1 idx.assets ([], [], [], [])
  let new_assets := applyBacklinks idx.assets tgbm.2.2.1
  { idx with
    assets := new_assets, tags := tgbm.1, link_resolver := lrmr.1,
    media_resolver := lrmr.2, link_graph := tgbm.2.1, map_backlinks := tgbm.2.2.2 }

/-! Event handling, embedding indexer.rs event routing and batching. -/

/-- Modelled from the spec: events.rs FileEvent (not under src); the variants are those of
spec section 6. -/
inductive FileEvent where
  | created (p : String)
  | modified (p : String)
  | deleted (p : String)
  | folderCreated (p : String)
  | folderDeleted (p : String)
  | renamed (src : String) (dst : String)
deriving DecidableEq

/-- Embedding of indexer.rs remove_file_from_index. -/
def remove_file_from_index (idx : Indexer) (path : String) : Indexer :=
  { idx with assets := aremove idx.assets path, parse_errors := aremove idx.parse_errors path }

/-- Applies the asset part of a scan result to the store. -/
def applyAsset (idx : Indexer) (p : String) : Option VaultAsset → Indexer
  | some a => { idx with assets := aset idx.assets p a }
  | none => idx

/-- Applies the error part of a scan result to the store. -/
def applyError (idx : Indexer) (p : String) : Option String → Indexer
  | some e => { idx with parse_errors := aset idx.parse_errors p e }
  | none => idx

/-- Applies one scan result to the store: insert the asset when present, then record the
error when present. -/
def applyScanResult (idx : Indexer) (r : ScanResult) : Indexer :=
  applyError (applyAsset idx r.path r.asset) r.path r.error

/-- Embedding of indexer.rs update_file: remove the old entry, reprocess the path and apply
the resulting asset and error. -/
def update_file (fs : FS) (idx : Indexer) (path : String) : Indexer :=
  applyScanResult (remove_file_from_index idx path) (process_path fs path)

/-- Embedding of indexer.rs remove_file. -/
def remove_file (idx : Indexer) (path : String) : Indexer := remove_file_from_index idx path

/-- Embedding of indexer.rs remove_folder; the component wise path starts_with test is
modelled as a string initial segment test. -/
def remove_folder (idx : Indexer) (path : String) : Indexer :=
  { idx with
    assets := idx.assets.filter (fun kv => ¬ isPre path.data kv.1.data),
    parse_errors := idx.parse_errors.filter (fun kv => ¬ isPre path.data kv.1.data) }

/-- Embedding of indexer.rs handle_rename: a folder rename moves every tracked descendant to
the new string prefix and a file rename removes the old key and reindexes the new path. -/
def handle_rename (fs : FS) (idx : Indexer) (src dst : String) : Indexer :=
  if dst ∈ fs.dirs then
    let assets_to_move := (idx.assets.map Prod.fst).filter (fun p => isPre src.data p.data)
    assets_to_move.foldl
      (fun acc old_path =>
        let acc1 := remove_file_from_index acc old_path
        let new_path := dst ++ String.mk (old_path.data.drop src.data.length)
        update_file fs acc1 new_path)
      idx
  else
    update_file fs (remove_file_from_index idx src) dst

/-- Embedding of indexer.rs handle_file_event, the low level per event router that never
rebuilds relations. -/
def handle_file_event (fs : FS) (idx : Indexer) : FileEvent → Indexer
  | .created path => update_file fs idx path
  | .folderCreated _ => idx
  | .modified path => update_file fs idx path
  | .deleted path => remove_file idx path
  | .folderDeleted path => remove_folder idx path
  | .renamed src dst => handle_rename fs idx src dst

/-- Embedding of indexer.rs handle_event_and_rebuild. -/
def handle_event_and_rebuild (fs : FS) (idx : Indexer) (event : FileEvent) : Indexer :=
  rebuild_relations (handle_file_event fs idx event)

/-- The coalescing pass of indexer.rs handle_event_batch: the net required operation per
path, true when the path finally exists and false when it is finally gone. -/
def coalesce : List FileEvent → List (String × Bool) → List (String × Bool)
  | [], st => st
  | e :: rest, st =>
    match e with
    | .created p => coalesce rest (aset st p true)
    | .folderCreated p => coalesce rest (aset st p true)
    | .modified p => coalesce rest (aset st p true)
    | .deleted p => coalesce rest (aset st p false)
    | .folderDeleted p => coalesce rest (aset st p false)
    | .renamed src dst => coalesce rest (aset (aset st src false) dst true)

/-- Applies the net operations of a coalesced batch: update when the path finally exists,
remove when it is finally gone. -/
def applyNet (fs : FS) : Indexer → List (String × Bool) → Indexer
  | idx, [] => idx
  | idx, (p, ex) :: rest =>
    applyNet fs (if ex then update_file fs idx p else remove_file idx p) rest

/-- Embedding of indexer.rs handle_event_batch: an empty batch does nothing, otherwise the
net effect per path is computed across the whole batch, applied once per path, and exactly
one relationship rebuild follows. -/
def handle_event_batch (fs : FS) (idx : Indexer) (events : List FileEvent) : Indexer :=
  if events.isEmpty then idx
  else rebuild_relations (applyNet fs idx (coalesce events []))

/-! Full vault scan, embedding indexer.rs scan_vault. -/

/-- Models the WalkDir enumeration: every known path of the model filesystem below the root,
the root directory included. -/
def walkdir (fs : FS) (root : String) : List String :=
  (fs.dirs ++ fs.files.map Prod.fst).filter (fun p => isPre root.data p.data)

/-- The state clearing step at the start of a full rescan. -/
def clearForScan (idx : Indexer) (root : String) : Indexer :=
  { idx with
    root_path := some root, assets := [], tags := [], parse_errors := [],
    link_resolver := [], media_resolver := [], link_graph := [], map_backlinks := [] }

/-- The sequential application of scan results to the cleared store. -/
def applyScanResults : Indexer → List ScanResult → Indexer
  | idx, [] => idx
  | idx, r :: rest => applyScanResults (applyScanResult idx r) rest

/-- Embedding of indexer.rs scan_vault: fails, leaving the store untouched, exactly when the
root is not a directory; otherwise clears all state, processes every enumerated path,
applies the results sequentially and runs one full relationship rebuild. The pair returned
is the operation outcome together with the store after the call. -/
def scan_vault (fs : FS) (root : String) (idx : Indexer) :
    Except ChroniclerError Unit × Indexer :=
  if root ∈ fs.dirs then
    let idx1 := clearForScan idx root
    let results := (walkdir fs root).map (process_path fs)
    (.ok (), rebuild_relations (applyScanResults idx1 results))
  else (.error (.notADirectory root), idx)

/-! The single consumer event loop, embedding world.rs process_file_events. -/

/-- Embedding of one iteration of world.rs process_file_events: on receiving one event the
consumer applies it through handle_file_event, with no relationship rebuild, and then emits
the index updated notification. The pair is the store state at emission time together with
the emission flag. -/
def process_file_events_step (fs : FS) (idx : Indexer) (event : FileEvent) : Indexer × Bool :=
  (handle_file_event fs idx event, true)

/-! The transclusion stage of the rendering pipeline, embedding renderer.rs
process_single_insert and the insert stage of render_custom_syntax_in_string. -/

/-- The single quote free opening brace pair of the insert syntax. -/
def openBB : List Char := ("\x7b\x7b").toList

/-- The closing brace pair of the insert syntax. -/
def closeBB : List Char := ("\x7d\x7d").toList

/-- The insert keyword with its colon. -/
def insertKey : List Char := ("insert:").toList

/-- The pieces of an insert match once the closing braces are located: the trimmed inner
text splits at the first pipe into the nonempty target and the raw attribute part. -/
def insertPieces (afterKey : List Char) (j : Nat) : Option (List Char × List Char × List Char) :=
  if trimCL ((trimCL (afterKey.take j)).takeWhile (fun c => c ≠ '|')) = [] then none
  else
    some (trimCL ((trimCL (afterKey.take j)).takeWhile (fun c => c ≠ '|')),
      (trimCL (afterKey.take j)).dropWhile (fun c => c ≠ '|'),
      afterKey.drop (j + 2))

/-- Attempts to read an insert match at the head of s, mirroring the INSERT_RE pattern:
double opening brace, optional whitespace, the insert keyword with a colon, a nonempty
trimmed path up to an optional pipe started attribute part, and a double closing brace.
Returns the target, the raw attribute text and the remaining input after the match. -/
def parseInsertAt (s : List Char) : Option (List Char × List Char × List Char) :=
  if isPre openBB s then
    match dropPre? insertKey ((s.drop 2).dropWhile isWsC) with
    | none => none
    | some afterKey =>
      match findSub closeBB afterKey with
      | none => none
      | some j => insertPieces afterKey j
  else none

/-- First insert match inside s together with the literal text before it, modelling one step
of the captures iteration over INSERT_RE. -/
def findInsert : List Char → Option (List Char × List Char × List Char × List Char)
  | [] => none
  | c :: rest =>
    match parseInsertAt (c :: rest) with
    | some (t, a, r) => some ([], t, a, r)
    | none =>
      match findInsert rest with
      | some (pre, t, a, r) => some (c :: pre, t, a, r)
      | none => none

/-- Length accounting for dropPre?. -/
theorem dropPre?_length {p s r : List Char} (h : dropPre? p s = some r) :
    r.length + p.length = s.length := by
  induction p generalizing s with
  | nil =>
    simp [dropPre?] at h
    subst h
    simp
  | cons a as ih =>
    cases s with
    | nil => simp [dropPre?] at h
    | cons b bs =>
      by_cases hab : a = b
      · subst hab
        simp [dropPre?] at h
        have := ih h
        simp only [List.length_cons]
        omega
      · simp [dropPre?, hab] at h

/-- dropWhile never lengthens a list. -/
theorem length_dropWhile_le (p : Char → Bool) (s : List Char) :
    (s.dropWhile p).length ≤ s.length := by
  induction s with
  | nil => simp
  | cons c rest ih =>
    by_cases h : p c
    · simp [List.dropWhile, h]
      omega
    · simp [List.dropWhile, h]

/-- The remaining input of insertPieces. -/
theorem insertPieces_rest {afterKey : List Char} {j : Nat} {t a r : List Char}
    (h : insertPieces afterKey j = some (t, a, r)) : r = afterKey.drop (j + 2) := by
  unfold insertPieces at h
  split at h
  · exact absurd h (by simp)
  · simp only [Option.some.injEq, Prod.mk.injEq] at h
    exact h.2.2.symm

/-- isPre implies the pattern is no longer than the scanned list. -/
theorem isPre_length {p s : List Char} (h : isPre p s = true) : p.length ≤ s.length := by
  induction p generalizing s with
  | nil => simp
  | cons a as ih =>
    cases s with
    | nil => simp [isPre] at h
    | cons b bs =>
      by_cases hab : a = b
      · subst hab
        simp only [isPre, if_true] at h
        have := ih h
        simp only [List.length_cons]
        omega
      · simp [isPre, hab] at h

/-- A successful insert match at the head consumes at least one character. -/
theorem parseInsertAt_rest_lt {s t a r : List Char} (h : parseInsertAt s = some (t, a, r)) :
    r.length < s.length := by
  unfold parseInsertAt at h
  split at h
  · rename_i h1
    split at h
    · exact absurd h (by simp)
    · rename_i afterKey h2
      split at h
      · exact absurd h (by simp)
      · rename_i j h3
        have hr := insertPieces_rest h
        have hlen1 : afterKey.length + 7 = ((s.drop 2).dropWhile isWsC).length := by
          have := dropPre?_length h2
          simpa [insertKey] using this
        have hlen2 : ((s.drop 2).dropWhile isWsC).length ≤ (s.drop 2).length :=
          length_dropWhile_le _ _
        have hlen3 : (s.drop 2).length = s.length - 2 := by simp
        have hlen5 : (2 : Nat) ≤ s.length := by
          have hbb := isPre_length h1
          have : openBB.length = 2 := by decide
          omega
        subst hr
        have hlen4 : (afterKey.drop (j + 2)).length = afterKey.length - (j + 2) := by simp
        omega
  · exact absurd h (by simp)

/-- The text after the first insert match is strictly shorter than the scanned text. -/
theorem findInsert_rest_lt {s pre t a r : List Char}
    (h : findInsert s = some (pre, t, a, r)) : r.length < s.length := by
  induction s generalizing pre with
  | nil => simp [findInsert] at h
  | cons c rest ih =>
    unfold findInsert at h
    cases hp : parseInsertAt (c :: rest) with
    | some v =>
      obtain ⟨t0, a0, r0⟩ := v
      simp only [hp] at h
      simp only [Option.some.injEq, Prod.mk.injEq] at h
      obtain ⟨h1, h2, h3, h4⟩ := h
      subst h2; subst h3; subst h4
      exact parseInsertAt_rest_lt hp
    | none =>
      simp only [hp] at h
      cases hf : findInsert rest with
      | some w =>
        obtain ⟨pre0, t0, a0, r0⟩ := w
        simp only [hf] at h
        simp only [Option.some.injEq, Prod.mk.injEq] at h
        obtain ⟨h1, h2, h3, h4⟩ := h
        subst h2; subst h3; subst h4
        have := ih hf
        simp only [List.length_cons]
        omega
      | none => simp [hf] at h

/-- HTML text escaping of ampersand and angle brackets, modelling html_escape encode_text. -/
def encodeText (s : List Char) : List Char :=
  s.flatMap (fun c =>
    if c = '&' then ("&amp;").toList
    else if c = '<' then ("&lt;").toList
    else if c = '>' then ("&gt;").toList
    else [c])

/-- The inline error box emitted for an unresolvable insert target. -/
def errorBoxNotFound (target : List Char) : List Char :=
  (("<div class=\"error-box\">Insert not found: ").toList) ++ encodeText target
    ++ (("</div>").toList)

/-- The inline error box emitted for an unreadable insert target. -/
def errorBoxUnreadable (path : String) : List Char :=
  (("<div class=\"error-box\">Could not read insert: ").toList) ++ encodeText path.data
    ++ (("</div>").toList)

/-- Parses a title attribute part, mirroring INSERT_TITLE_RE: the title keyword, an equals
sign with optional spaces, and a fully quoted value with either quote kind. -/
def parseTitlePart (part : List Char) : Option (List Char) :=
  match dropPre? (("title").toList) part with
  | none => none
  | some r0 =>
    match r0.dropWhile isWsC with
    | '=' :: r2 =>
      match r2.dropWhile isWsC with
      | q :: r3 =>
        if q = '"' || q = sQuote then
          match findSub [q] r3 with
          | some j => if r3.drop (j + 1) = [] then some (r3.take j) else none
          | none => none
        else none
      | [] => none
    | _ => none

/-- Parses the attribute text of an insert: leading pipes are stripped, the text splits at
pipes, every part is trimmed and recognized as hidden, centered, borderless or a title
override. Returns (title, hidden, centered, borderless). -/
def parseAttrs (attrs : List Char) : Option (List Char) × Bool × Bool × Bool :=
  ((splitOnC ('|') (attrs.dropWhile (fun c => c = '|'))).map trimCL).foldl
    (fun acc part =>
      if part = ("hidden").toList then (acc.1, true, acc.2.2.1, acc.2.2.2)
      else if part = ("centered").toList then (acc.1, acc.2.1, true, acc.2.2.2)
      else if part = ("borderless").toList then (acc.1, acc.2.1, acc.2.2.1, true)
      else
        match parseTitlePart part with
        | some t => (some t, acc.2.1, acc.2.2.1, acc.2.2.2)
        | none => acc)
    (none, false, false, false)

/-- The insert container markup of process_single_insert; the whitespace layout of the Rust
format string is abbreviated. -/
def insertContainer (insert_path : String) (title : Option (List Char))
    (is_hidden is_centered : Bool) (rendered : List Char) : List Char :=
  let final_title := match title with
    | some t => t
    | none => (file_stem_string insert_path).data
  let container_class :=
    if is_hidden then ("insert-container collapsed") else ("insert-container")
  let button_text := if is_hidden then ("[show]") else ("[hide]")
  let title_wrapper_class :=
    if is_centered then ("insert-title-wrapper centered") else ("insert-title-wrapper")
  (("<div class=\"")).toList ++ container_class.toList
    ++ (("\">\n<div class=\"insert-header\">\n<span class=\"")).toList
    ++ title_wrapper_class.toList ++ (("\">\n<span>")).toList ++ final_title
    ++ (("</span>\n</span>\n<button class=\"insert-toggle\">")).toList ++ button_text.toList
    ++ (("</button>\n</div>\n<div class=\"insert-content\">")).toList ++ rendered
    ++ (("</div>\n</div>")).toList

mutual

/-- Embedding of renderer.rs process_single_insert. An unresolvable target and an
unreadable file degrade to inline error boxes, a target already on the rendering stack
raises the circular insert error before any recursive work, and a resolved readable target
is recursively rendered with the target pushed on the stack. The fuel argument bounds only
the transclusion recursion depth and is an embedding artifact proved irrelevant above the
number of resolvable pages. -/
def process_single_insert (fs : FS) (idx : Indexer) (fuel : Nat)
    (rendering_stack : List String) (target attrs : List Char) :
    Except ChroniclerError (List Char) :=
  match alookup idx.link_resolver (lowerStr (String.mk target)) with
  | none => .ok (errorBoxNotFound target)
  | some insert_path =>
    if insert_path ∈ rendering_stack then .error (.circularInsert insert_path)
    else
      match readFile fs insert_path with
      | none => .ok (errorBoxUnreadable insert_path)
      | some content =>
        match fuel with
        | 0 => .error .fuelExhausted
        | fuel2 + 1 =>
          match render_inserts fs idx fuel2 (rendering_stack ++ [insert_path])
              (extract_frontmatter content).2 with
          | .error e => .error e
          | .ok rendered_html =>
            if (parseAttrs attrs).2.2.2 then .ok rendered_html
            else
              .ok (insertContainer insert_path (parseAttrs attrs).1 (parseAttrs attrs).2.1
                (parseAttrs attrs).2.2.1 rendered_html)
termination_by (fuel, 0)
decreasing_by
  exact Prod.Lex.left _ _ (by omega)

/-- Embedding of the insert stage of render_custom_syntax_in_string: every insert match of
the text is processed in order and replaced by its rendered result; an error from any
single insert propagates and aborts the whole render. The markup event machinery and the
non recursive custom syntax stages are outside the transclusion recursion and are not
modelled. -/
def render_inserts (fs : FS) (idx : Indexer) (fuel : Nat) (rendering_stack : List String)
    (text : List Char) : Except ChroniclerError (List Char) :=
  match _hfi : findInsert text with
  | none => .ok text
  | some (pre, target, attrs, restText) =>
    match process_single_insert fs idx fuel rendering_stack target attrs with
    | .error e => .error e
    | .ok html =>
      match render_inserts fs idx fuel rendering_stack restText with
      | .error e => .error e
      | .ok restHtml => .ok (pre ++ html ++ restHtml)
termination_by (fuel, text.length + 1)
decreasing_by
  · exact Prod.Lex.right _ (by omega)
  · exact Prod.Lex.right _ (by have := findInsert_rest_lt _hfi; omega)

end

/-! Association map lemmas shared by the claim proofs. -/

/-- Lookup after insert. -/
theorem alookup_aset {V : Type} (m : List (String × V)) (k k1 : String) (v : V) :
    alookup (aset m k v) k1 = if k = k1 then some v else alookup m k1 := by
  induction m with
  | nil =>
    by_cases h : k = k1 <;> simp [aset, alookup, h]
  | cons kv rest ih =>
    obtain ⟨k2, v2⟩ := kv
    by_cases h2 : k2 = k
    · subst h2
      by_cases h : k2 = k1 <;> simp [aset, alookup, h]
    · by_cases h : k2 = k1
      · subst h
        have hk : ¬ k = k2 := fun hh => h2 hh.symm
        simp [aset, alookup, h2, hk]
      · simp [aset, alookup, h2, h, ih]

/-- Lookup with default after insert. -/
theorem agetD_aset {V : Type} (m : List (String × V)) (k k1 : String) (v d : V) :
    agetD (aset m k v) k1 d = if k = k1 then v else agetD m k1 d := by
  simp only [agetD, alookup_aset]
  by_cases h : k = k1 <;> simp [h]

/-- Lookup after removal. -/
theorem alookup_aremove {V : Type} (m : List (String × V)) (k k1 : String) :
    alookup (aremove m k) k1 = if k = k1 then none else alookup m k1 := by
  induction m with
  | nil => by_cases h : k = k1 <;> simp [aremove, alookup, h]
  | cons kv rest ih =>
    obtain ⟨k2, v2⟩ := kv
    by_cases h2 : k2 = k
    · subst h2
      have : ¬ k2 ≠ k2 := by simp
      by_cases h : k2 = k1
      · subst h
        simp [aremove, alookup] at ih ⊢
        simp [ih]
      · simp [aremove, alookup, h] at ih ⊢
        simp [ih, h]
    · by_cases h : k2 = k1
      · subst h
        have hk : ¬ k = k2 := fun hh => h2 hh.symm
        simp [aremove, alookup, h2, hk]
      · simp [aremove, alookup, h2, h] at ih ⊢
        simp [ih]

/-- Membership in the list model of HashSet insert. -/
theorem mem_sinsert (s : List String) (x y : String) :
    x ∈ sinsert s y ↔ x = y ∨ x ∈ s := by
  by_cases h : y ∈ s
  · simp [sinsert, h]
    intro hx
    subst hx
    exact h
  · simp [sinsert, h, or_comm]

/-- The list model of HashSet insert preserves distinctness. -/
theorem nodup_sinsert {s : List String} (h : s.Nodup) (y : String) :
    (sinsert s y).Nodup := by
  by_cases hy : y ∈ s
  · simpa [sinsert, hy] using h
  · simp [sinsert, hy, List.nodup_append, h]

/-- alookup hits only keys of the list. -/
theorem alookup_mem_values {V : Type} {m : List (String × V)} {k : String} {v : V}
    (h : alookup m k = some v) : v ∈ m.map Prod.snd := by
  induction m with
  | nil => simp [alookup] at h
  | cons kv rest ih =>
    obtain ⟨k2, v2⟩ := kv
    by_cases h2 : k2 = k
    · simp [alookup, h2] at h
      subst h
      simp
    · simp [alookup, h2] at h
      simp [ih h]

/-! Claim C8: scan_vault fails exactly on a bad root and then changes nothing. -/

/-- Claim C8: scan_vault returns an error if and only if the root is not a directory, the
error is the NotADirectory kind, an erroring call leaves the store completely unchanged, and
a directory root always yields success regardless of per file failures. -/
theorem scan_vault_error_iff (fs : FS) (root : String) (idx : Indexer) :
    ((scan_vault fs root idx).1 = .error (.notADirectory root) ↔ ¬ root ∈ fs.dirs)
    ∧ (∀ e, (scan_vault fs root idx).1 = .error e → (scan_vault fs root idx).2 = idx)
    ∧ (root ∈ fs.dirs → (scan_vault fs root idx).1 = .ok ()) := by
  by_cases h : root ∈ fs.dirs <;> simp [scan_vault, h]

/-- Witness for scan_vault_error_iff at a concrete filesystem with a bad root. -/
theorem scan_vault_error_iff_witness :
    (scan_vault { files := [], dirs := [("v")] } ("x") {}).1 = .error (.notADirectory ("x"))
    ∧ (scan_vault { files := [], dirs := [("v")] } ("x") {}).2 = ({} : Indexer) := by
  have h := scan_vault_error_iff { files := [], dirs := [("v")] } ("x") {}
  have hx : ¬ ("x") ∈ ({ files := [], dirs := [("v")] } : FS).dirs := by decide
  exact ⟨h.1.mpr hx, h.2.1 _ (h.1.mpr hx)⟩

/-! Claim C9: the event consumer signals after a single event with no rebuild. -/

/-- update_file changes only the assets and the parse error log. -/
theorem update_file_derived (fs : FS) (idx : Indexer) (path : String) :
    (update_file fs idx path).link_resolver = idx.link_resolver
    ∧ (update_file fs idx path).media_resolver = idx.media_resolver
    ∧ (update_file fs idx path).tags = idx.tags
    ∧ (update_file fs idx path).link_graph = idx.link_graph
    ∧ (update_file fs idx path).map_backlinks = idx.map_backlinks := by
  unfold update_file applyScanResult remove_file_from_index
  cases (process_path fs path).asset <;> cases (process_path fs path).error <;>
    simp [applyAsset, applyError]

/-- The folder rename fold changes only the assets and the parse error log. -/
theorem rename_fold_derived (fs : FS) (src dst : String) (l : List String) (acc : Indexer) :
    ((l.foldl
        (fun acc2 old_path =>
          update_file fs (remove_file_from_index acc2 old_path)
            (dst ++ String.mk (old_path.data.drop src.data.length)))
        acc).link_resolver = acc.link_resolver)
    ∧ ((l.foldl
        (fun acc2 old_path =>
          update_file fs (remove_file_from_index acc2 old_path)
            (dst ++ String.mk (old_path.data.drop src.data.length)))
        acc).media_resolver = acc.media_resolver)
    ∧ ((l.foldl
        (fun acc2 old_path =>
          update_file fs (remove_file_from_index acc2 old_path)
            (dst ++ String.mk (old_path.data.drop src.data.length)))
        acc).tags = acc.tags)
    ∧ ((l.foldl
        (fun acc2 old_path =>
          update_file fs (remove_file_from_index acc2 old_path)
            (dst ++ String.mk (old_path.data.drop src.data.length)))
        acc).link_graph = acc.link_graph)
    ∧ ((l.foldl
        (fun acc2 old_path =>
          update_file fs (remove_file_from_index acc2 old_path)
            (dst ++ String.mk (old_path.data.drop src.data.length)))
        acc).map_backlinks = acc.map_backlinks) := by
  induction l generalizing acc with
  | nil => simp
  | cons x xs ih =>
    simp only [List.foldl_cons]
    have hu := update_file_derived fs (remove_file_from_index acc x)
      (dst ++ String.mk (x.data.drop src.data.length))
    have hr := ih (update_file fs (remove_file_from_index acc x)
      (dst ++ String.mk (x.data.drop src.data.length)))
    refine ⟨?_, ?_, ?_, ?_, ?_⟩ <;>
      simp_all [remove_file_from_index]

/-- Amended claim C9: one wake up of the consumer applies exactly one event through the low
level router and signals afterwards; no relationship rebuild happens before the signal, so
every derived relationship map at signal time is the one from before the event. -/
theorem consumer_signals_without_rebuild (fs : FS) (idx : Indexer) (e : FileEvent) :
    ((process_file_events_step fs idx e).1.link_resolver = idx.link_resolver)
    ∧ ((process_file_events_step fs idx e).1.media_resolver = idx.media_resolver)
    ∧ ((process_file_events_step fs idx e).1.tags = idx.tags)
    ∧ ((process_file_events_step fs idx e).1.link_graph = idx.link_graph)
    ∧ ((process_file_events_step fs idx e).1.map_backlinks = idx.map_backlinks)
    ∧ ((process_file_events_step fs idx e).1 = handle_file_event fs idx e)
    ∧ (process_file_events_step fs idx e).2 = true := by
  cases e with
  | created p =>
    have := update_file_derived fs idx p
    simp_all [process_file_events_step, handle_file_event]
  | modified p =>
    have := update_file_derived fs idx p
    simp_all [process_file_events_step, handle_file_event]
  | deleted p =>
    simp [process_file_events_step, handle_file_event, remove_file, remove_file_from_index]
  | folderCreated p =>
    simp [process_file_events_step, handle_file_event]
  | folderDeleted p =>
    simp [process_file_events_step, handle_file_event, remove_folder]
  | renamed src dst =>
    by_cases h : dst ∈ fs.dirs
    · have := rename_fold_derived fs src dst
        ((idx.assets.map Prod.fst).filter (fun p => isPre src.data p.data)) idx
      simp_all [process_file_events_step, handle_file_event, handle_rename]
    · have := update_file_derived fs (remove_file_from_index idx src) dst
      simp_all [process_file_events_step, handle_file_event, handle_rename,
        remove_file_from_index]

/-- Page used by the consumer counterexample: a page whose text links to the page B. -/
def pageA : Page :=
  { path := ("A.md"), title := ("A"), links := [{ target := ("B") }] }

/-- Page used by the consumer counterexample: the link target page. -/
def pageB : Page := { path := ("B.md"), title := ("B") }

/-- Store of the consumer counterexample: two pages with freshly rebuilt relationships. -/
def idxC9 : Indexer :=
  rebuild_relations { assets := [(("A.md"), .page pageA), (("B.md"), .page pageB)] }

/-- Counterexample to claim C9: after the consumer handles a deletion event the notification
is emitted while the link graph still holds the edge into the deleted page, so the derived
relationships at signal time differ from a rebuild over the current assets. -/
theorem signal_time_inconsistency_cex :
    (process_file_events_step {} idxC9 (.deleted ("B.md"))).2 = true
    ∧ (process_file_events_step {} idxC9 (.deleted ("B.md"))).1.link_graph
      ≠ (rebuild_relations (process_file_events_step {} idxC9 (.deleted ("B.md"))).1).link_graph := by
  constructor
  · rfl
  · decide

/-! Claim C3: batch coalescing makes a delete followed by a create equal to a modify. -/

/-- The rebuild keeps every page asset a page asset. -/
theorem applyBacklinks_page {assets : List (String × VaultAsset)} {b} {T : String} {pg : Page}
    (h : alookup assets T = some (.page pg)) :
    ∃ pg2, alookup (applyBacklinks assets b) T = some (.page pg2) := by
  induction assets generalizing b with
  | nil => simp [alookup] at h
  | cons kv rest ih =>
    obtain ⟨path, asset⟩ := kv
    by_cases hp : path = T
    · subst hp
      simp [alookup] at h
      subst h
      exact ⟨{ pg with backlinks := agetD b path [] }, by simp [applyBacklinks, alookup]⟩
    · simp [alookup, hp] at h
      cases asset with
      | page pg3 => exact (ih h (b := aremove b path)).imp (fun pg2 hh => by
          simpa [applyBacklinks, alookup, hp] using hh)
      | directory => exact (ih h (b := b)).imp (fun pg2 hh => by
          simpa [applyBacklinks, alookup, hp] using hh)
      | image => exact (ih h (b := b)).imp (fun pg2 hh => by
          simpa [applyBacklinks, alookup, hp] using hh)
      | map c => exact (ih h (b := b)).imp (fun pg2 hh => by
          simpa [applyBacklinks, alookup, hp] using hh)

/-- Claim C3: the event batch of a deletion followed by a creation of the same path
coalesces to exactly one update of that path, yields the same final store as a single
modification batch, and when the path is a readable markdown file it remains indexed as a
page after the batch. -/
theorem batch_coalescing_equiv (fs : FS) (idx : Indexer) (P : String)
    (hm : is_markdown_file P = true) (hc : (readFile fs P).isSome = true) :
    handle_event_batch fs idx [.deleted P, .created P]
      = handle_event_batch fs idx [.modified P]
    ∧ coalesce [.deleted P, .created P] [] = [(P, true)]
    ∧ ∃ pg, alookup (handle_event_batch fs idx [.deleted P, .created P]).assets P
        = some (.page pg) := by
  have hco : coalesce [FileEvent.deleted P, FileEvent.created P] [] = [(P, true)] := by
    simp [coalesce, aset]
  have hco2 : coalesce [FileEvent.modified P] [] = [(P, true)] := by
    simp [coalesce, aset]
  have hbatch : handle_event_batch fs idx [.deleted P, .created P]
      = rebuild_relations (update_file fs idx P) := by
    simp [handle_event_batch, hco, applyNet]
  have hbatch2 : handle_event_batch fs idx [.modified P]
      = rebuild_relations (update_file fs idx P) := by
    simp [handle_event_batch, hco2, applyNet]
  refine ⟨by rw [hbatch, hbatch2], hco, ?_⟩
  rw [hbatch]
  have hcanon : canonicalize fs P = some P := by
    simp [canonicalize, hc]
  have hasset : ∃ pg0, (process_path fs P).asset = some (.page pg0)
      ∧ (process_path fs P).path = P := by
    unfold process_path
    rw [hcanon]
    simp only [hm, if_true]
    cases hpf : parse_file fs P with
    | ok page => exact ⟨page, by simp [hpf]⟩
    | error e =>
      exact ⟨{ defaultPage with path := P, title := file_stem_string P }, by simp [hpf]⟩
  obtain ⟨pg0, ha, hp⟩ := hasset
  have hup : alookup (update_file fs idx P).assets P = some (.page pg0) := by
    unfold update_file applyScanResult
    rw [hp, ha]
    cases he : (process_path fs P).error with
    | none => simp [applyError, applyAsset, alookup_aset]
    | some e => simp [applyError, applyAsset, alookup_aset]
  have := applyBacklinks_page (b := (pass2 (pass1 (update_file fs idx P).assets).1
      (update_file fs idx P).assets ([], [], [], [])).2.2.1) hup
  simpa [rebuild_relations] using this

/-- Witness for batch_coalescing_equiv on a one file filesystem. -/
theorem batch_coalescing_equiv_witness :
    handle_event_batch { files := [(("n.md"), (("hi").toList))] } {}
        [.deleted ("n.md"), .created ("n.md")]
      = handle_event_batch { files := [(("n.md"), (("hi").toList))] } {} [.modified ("n.md")]
    ∧ coalesce [.deleted ("n.md"), .created ("n.md")] [] = [(("n.md"), true)] := by
  have h := batch_coalescing_equiv { files := [(("n.md"), (("hi").toList))] } {} ("n.md")
    (by decide) (by decide)
  exact ⟨h.1, h.2.1⟩

/-! Claim C1: after a rebuild the backlinks are exactly the inverse of the link graph. -/

/-- The invariant tying the pending backlink sets to the link graph during pass two: a
source is in the pending set of a target exactly when the graph holds a nonempty edge list
from the source to the target, and every pending set is duplicate free. -/
def BLInv (g : List (String × List (String × List Link)))
    (b : List (String × List String)) : Prop :=
  (∀ T, (agetD b T []).Nodup)
  ∧ ∀ S T, S ∈ agetD b T [] ↔ agetD (agetD g S []) T [] ≠ []

/-- Edge list lookup after one addLink. -/
theorem agetD_addLink (g : List (String × List (String × List Link))) (p tp : String)
    (l : Link) (S T : String) :
    agetD (agetD (addLink g p tp l) S []) T []
      = if S = p ∧ T = tp then agetD (agetD g p []) tp [] ++ [l]
        else agetD (agetD g S []) T [] := by
  unfold addLink
  by_cases hS : p = S
  · subst hS
    rw [agetD_aset]
    simp only [eq_self_iff_true, if_true, true_and]
    rw [agetD_aset]
    by_cases hT : tp = T
    · subst hT
      simp
    · have hT2 : ¬ T = tp := fun hh => hT hh.symm
      simp [hT, hT2]
  · rw [agetD_aset]
    have hS2 : ¬ (S = p ∧ T = tp) := fun hh => hS hh.1.symm
    simp [hS, hS2]

/-- One resolved link preserves the invariant. -/
theorem BLInv_step {g b} (p tp : String) (l : Link) (hinv : BLInv g b) :
    BLInv (addLink g p tp l) (aset b tp (sinsert (agetD b tp []) p)) := by
  obtain ⟨hnd, hiff⟩ := hinv
  constructor
  · intro T
    rw [agetD_aset]
    by_cases hT : tp = T
    · simp only [hT, eq_self_iff_true, if_true]
      exact nodup_sinsert (by simpa [hT] using hnd tp) p
    · simp only [hT, if_false]
      exact hnd T
  · intro S T
    rw [agetD_aset, agetD_addLink]
    by_cases hT : tp = T
    · subst hT
      simp only [eq_self_iff_true, if_true, and_true]
      rw [mem_sinsert]
      by_cases hS : S = p
      · subst hS
        simp
      · have hS2 : ¬ (S = p ∧ tp = tp) := fun hh => hS hh.1
        simp [hS, hS2, hiff S tp]
    · have hT2 : ¬ (S = p ∧ T = tp) := fun hh => hT hh.2.symm
      simp only [hT, if_false, hT2]
      exact hiff S T

/-- Pass two link processing preserves the invariant. -/
theorem pass2Links_inv (path : String) (lr : List (String × String)) :
    ∀ (links : List Link) (g b), BLInv g b →
      BLInv (pass2Links path lr links (g, b)).1 (pass2Links path lr links (g, b)).2 := by
  intro links
  induction links with
  | nil => intro g b h; exact h
  | cons l ls ih =>
    intro g b h
    cases hres : alookup lr (lowerStr l.target) with
    | none =>
      simp only [pass2Links, hres]
      exact ih g b h
    | some tp =>
      simp only [pass2Links, hres]
      exact ih _ _ (BLInv_step path tp l h)

/-- Pass two over all assets preserves the invariant. -/
theorem pass2_inv (lr : List (String × String)) :
    ∀ (assets : List (String × VaultAsset)) (t g b m), BLInv g b →
      BLInv (pass2 lr assets (t, g, b, m)).2.1 (pass2 lr assets (t, g, b, m)).2.2.1 := by
  intro assets
  induction assets with
  | nil => intro t g b m h; exact h
  | cons kv rest ih =>
    intro t g b m h
    obtain ⟨path, asset⟩ := kv
    cases asset with
    | page pg =>
      simp only [pass2]
      exact ih _ _ _ _ (pass2Links_inv path lr pg.links g b h)
    | map cfg =>
      simp only [pass2]
      exact ih _ _ _ _ h
    | directory =>
      simp only [pass2]
      exact ih _ _ _ _ h
    | image =>
      simp only [pass2]
      exact ih _ _ _ _ h

/-- Under distinct asset keys, pass three writes each page exactly its pending set. -/
theorem applyBacklinks_lookup {assets : List (String × VaultAsset)}
    (hnd : (assets.map Prod.fst).Nodup) {b} {T : String} {pg : Page}
    (h : alookup assets T = some (.page pg)) :
    alookup (applyBacklinks assets b) T
      = some (.page { pg with backlinks := agetD b T [] }) := by
  induction assets generalizing b with
  | nil => simp [alookup] at h
  | cons kv rest ih =>
    obtain ⟨path, asset⟩ := kv
    simp only [List.map_cons, List.nodup_cons] at hnd
    by_cases hp : path = T
    · subst hp
      simp [alookup] at h
      subst h
      simp [applyBacklinks, alookup]
    · simp [alookup, hp] at h
      cases asset with
      | page pg3 =>
        have hrec := ih hnd.2 (b := aremove b path) h
        have hag : agetD (aremove b path) T [] = agetD b T [] := by
          simp [agetD, alookup_aremove, hp]
        rw [hag] at hrec
        simpa [applyBacklinks, alookup, hp] using hrec
      | directory =>
        have hrec := ih hnd.2 (b := b) h
        simpa [applyBacklinks, alookup, hp] using hrec
      | image =>
        have hrec := ih hnd.2 (b := b) h
        simpa [applyBacklinks, alookup, hp] using hrec
      | map c =>
        have hrec := ih hnd.2 (b := b) h
        simpa [applyBacklinks, alookup, hp] using hrec

/-- Claim C1: for every store with distinct asset keys, after rebuild_relations every page
carries a duplicate free backlinks set that holds a source exactly when the rebuilt link
graph has an edge list from that source into the page, so pages with no incoming edge have
an empty backlinks set. -/
theorem rebuild_backlinks_exact (idx : Indexer)
    (hnd : (idx.assets.map Prod.fst).Nodup) (T : String) (pg0 : Page)
    (h : alookup idx.assets T = some (.page pg0)) :
    ∃ pg, alookup (rebuild_relations idx).assets T = some (.page pg)
      ∧ pg.backlinks.Nodup
      ∧ ∀ S, S ∈ pg.backlinks
          ↔ agetD (agetD (rebuild_relations idx).link_graph S []) T [] ≠ [] := by
  have hassets : (rebuild_relations idx).assets
      = applyBacklinks idx.assets
          (pass2 (pass1 idx.assets).1 idx.assets ([], [], [], [])).2.2.1 := rfl
  have hgraph : (rebuild_relations idx).link_graph
      = (pass2 (pass1 idx.assets).1 idx.assets ([], [], [], [])).2.1 := rfl
  have hinv0 : BLInv ([] : List (String × List (String × List Link)))
      ([] : List (String × List String)) := by
    constructor
    · intro T2; simp [agetD, alookup]
    · intro S T2; simp [agetD, alookup]
  have hinv := pass2_inv (pass1 idx.assets).1 idx.assets [] [] [] [] hinv0
  refine ⟨{ pg0 with
      backlinks := agetD (pass2 (pass1 idx.assets).1 idx.assets ([], [], [], [])).2.2.1 T [] },
    ?_, ?_, ?_⟩
  · rw [hassets]
    exact applyBacklinks_lookup hnd h
  · exact hinv.1 T
  · intro S
    rw [hgraph]
    exact hinv.2 S T

/-- Witness for rebuild_backlinks_exact on a two page store. -/
theorem rebuild_backlinks_exact_witness :
    ((([(("A.md"), VaultAsset.page pageA), (("B.md"), VaultAsset.page pageB)].map
        Prod.fst).Nodup))
    ∧ ∃ pg, alookup (rebuild_relations
        { assets := [(("A.md"), .page pageA), (("B.md"), .page pageB)] }).assets ("B.md")
        = some (.page pg)
      ∧ pg.backlinks.Nodup
      ∧ ∀ S, S ∈ pg.backlinks
          ↔ agetD (agetD (rebuild_relations
              { assets := [(("A.md"), .page pageA), (("B.md"), .page pageB)] }).link_graph
              S []) ("B.md") [] ≠ [] := by
  refine ⟨by decide, ?_⟩
  exact rebuild_backlinks_exact
    { assets := [(("A.md"), .page pageA), (("B.md"), .page pageB)] }
    (by decide) ("B.md") pageB (by simp [alookup])

/-! Frontmatter delimiter lemmas for claims C6 and C10. -/

theorem dropPre?_append_self (p s : List Char) : dropPre? p (p ++ s) = some s := by
  induction p with
  | nil => simp [dropPre?]
  | cons a as ih => simp [dropPre?, ih]

theorem isPre_append_self (p s : List Char) : isPre p (p ++ s) = true := by
  induction p with
  | nil => simp [isPre]
  | cons a as ih => simp [isPre, ih]

theorem crlf_opener_not_lf (A : List Char) :
    dropPre? (("---\n").toList) ((("---\r\n").toList) ++ A) = none := by
  simp [dropPre?]

theorem findSub_cons (pat : List Char) (c : Char) (rest : List Char) :
    findSub pat (c :: rest)
      = if isPre pat (c :: rest) = true then some 0 else (findSub pat rest).map (· + 1) := rfl

theorem notPre_dashes (A t : List Char) (h : isPre ['-', '-', '-'] A = false) :
    isPre ['-', '-', '-'] (A ++ '\n' :: t) = false := by
  match A with
  | [] => simp [isPre]
  | [a] => simp [isPre]
  | [a, b] => simp [isPre]
  | a :: b :: c :: A3 =>
    simp [isPre] at h ⊢
    intro h1 h2 h3
    exact h h1 h2 h3


theorem findSub_marker_append (A B : List Char)
    (h : findSub (("\n---").toList) A = none) :
    findSub (("\n---").toList) (A ++ (("\n---").toList) ++ B) = some A.length := by
  have e : ("\n---").toList = ['\n', '-', '-', '-'] := rfl
  rw [e] at h ⊢
  rw [List.append_assoc]
  induction A with
  | nil =>
    have hpre := isPre_append_self ['\n', '-', '-', '-'] B
    simp only [List.nil_append, List.length_nil]
    rw [show (['\n', '-', '-', '-'] ++ B) = '\n' :: (['-', '-', '-'] ++ B) from rfl]
    rw [findSub_cons]
    rw [if_pos (by simpa using hpre)]
  | cons a A1 ih =>
    rw [findSub_cons] at h
    by_cases hp : isPre ['\n', '-', '-', '-'] (a :: A1) = true
    · rw [if_pos hp] at h
      exact absurd h (by simp)
    · rw [if_neg hp] at h
      have hA1 : findSub ['\n', '-', '-', '-'] A1 = none := by
        cases hx : findSub ['\n', '-', '-', '-'] A1
        · rfl
        · rw [hx] at h
          simp at h
      have hrec := ih hA1
      have hgoal : isPre ['\n', '-', '-', '-'] (a :: (A1 ++ (['\n', '-', '-', '-'] ++ B)))
          = false := by
        by_cases ha : ('\n') = a
        · subst ha
          have hd3 : isPre ['-', '-', '-'] A1 = false := by
            simpa [isPre] using hp
          have h5 := notPre_dashes A1 (['-', '-', '-'] ++ B) hd3
          simp only [isPre, eq_self_iff_true, if_true]
          have hshape : A1 ++ (['\n', '-', '-', '-'] ++ B)
              = A1 ++ '\n' :: (['-', '-', '-'] ++ B) := by simp
          rw [hshape]
          simpa using h5
        · simp [isPre, ha]
      rw [show (a :: A1) ++ (['\n', '-', '-', '-'] ++ B)
          = a :: (A1 ++ (['\n', '-', '-', '-'] ++ B)) from by simp]
      rw [findSub_cons]
      rw [if_neg (by simpa using hgoal)]
      rw [hrec]
      simp

theorem take_append_len (l1 l2 : List Char) : (l1 ++ l2).take l1.length = l1 := by
  induction l1 with
  | nil => simp
  | cons a as ih => simp [ih]

theorem drop_append_len (l1 l2 : List Char) (n : Nat) :
    (l1 ++ l2).drop (l1.length + n) = l2.drop n := by
  induction l1 with
  | nil => simp
  | cons a as ih =>
    simp only [List.cons_append, List.length_cons]
    rw [show as.length + 1 + n = (as.length + n) + 1 from by omega]
    simp only [List.drop_succ_cons]
    exact ih

theorem extract_frontmatter_lf (A : List Char) :
    extract_frontmatter ((("---\n").toList) ++ A)
      = extractFmAfter ((("---\n").toList) ++ A) A := by
  rw [extract_frontmatter, dropPre?_append_self]

theorem extract_frontmatter_crlf (A : List Char) :
    extract_frontmatter ((("---\r\n").toList) ++ A)
      = extractFmAfter ((("---\r\n").toList) ++ A) A := by
  rw [extract_frontmatter, crlf_opener_not_lf, dropPre?_append_self]

theorem extractFmAfter_none (content after : List Char)
    (h : findSub (("\n---").toList) after = none) :
    extractFmAfter content after = ([], content) := by
  simp only [extractFmAfter, h]

theorem extractFmAfter_some (content after : List Char) (j : Nat)
    (h : findSub (("\n---").toList) after = some j) :
    extractFmAfter content after
      = (stripCR (after.take j), bodyAfterClose (after.drop (j + 4))) := by
  simp only [extractFmAfter, bodyAfterClose, h]

/-- Amended claim C6: for content opening with a three dash line, the frontmatter region is
closed by the next line that STARTS with three dashes, the first occurrence of a newline
followed by three dashes, even when more characters follow on that line; the trailing CR is
stripped and the remaining characters of the closing line stay at the start of the body. -/
theorem frontmatter_closes_at_dash_line (A B : List Char)
    (h : findSub (("\n---").toList) A = none) :
    extract_frontmatter ((("---\n").toList) ++ (A ++ (("\n---").toList) ++ B))
      = (stripCR A, bodyAfterClose B) := by
  rw [extract_frontmatter_lf]
  rw [extractFmAfter_some _ _ _ (findSub_marker_append A B h)]
  have htake : (A ++ (("\n---").toList) ++ B).take A.length = A := by
    rw [List.append_assoc]
    exact take_append_len A _
  have hdrop : (A ++ (("\n---").toList) ++ B).drop (A.length + 4) = B := by
    rw [List.append_assoc]
    rw [drop_append_len A _ 4]
    rfl
  rw [htake]
  rw [show A.length + 4 = A.length + 4 from rfl]
  rw [hdrop]

/-- Counterexample to claim C6: a line that starts with three dashes but carries further
characters on the same line does close the frontmatter, against the claim that only a line
consisting solely of three dashes does. -/
theorem dash_prefix_line_closes_cex :
    extract_frontmatter (("---\na: 1\n--- x\nbody").toList)
      = ((("a: 1").toList), ((" x\nbody").toList))
    ∧ extract_frontmatter (("---\na: 1\n--- x\nbody").toList)
      ≠ ([], ("---\na: 1\n--- x\nbody").toList) := by
  constructor
  · decide
  · decide

/-- Claim C10: content beginning with a three dash opener line, and containing no later
occurrence of a newline followed by three dashes, yields empty frontmatter with the entire
original content, opener included, as the body; and the empty frontmatter string parses to
the null value without any error. -/
theorem unterminated_frontmatter_whole_body (A : List Char) (path : String)
    (h : findSub (("\n---").toList) A = none) :
    extract_frontmatter ((("---\n").toList) ++ A) = ([], (("---\n").toList) ++ A)
    ∧ extract_frontmatter ((("---\r\n").toList) ++ A) = ([], (("---\r\n").toList) ++ A)
    ∧ parse_frontmatter [] path = .ok .null := by
  refine ⟨?_, ?_, rfl⟩
  · rw [extract_frontmatter_lf]
    exact extractFmAfter_none _ _ h
  · rw [extract_frontmatter_crlf]
    exact extractFmAfter_none _ _ h

/-- Witness for frontmatter_closes_at_dash_line at the concrete closing line with trailing
characters. -/
theorem frontmatter_closes_at_dash_line_witness :
    findSub (("\n---").toList) (("a: 1").toList) = none
    ∧ extract_frontmatter ((("---\n").toList)
        ++ ((("a: 1").toList) ++ (("\n---").toList) ++ ((" x\nbody").toList)))
      = (stripCR (("a: 1").toList), bodyAfterClose ((" x\nbody").toList)) :=
  ⟨by decide, frontmatter_closes_at_dash_line _ _ (by decide)⟩

/-- Witness for unterminated_frontmatter_whole_body at a concrete unterminated content. -/
theorem unterminated_frontmatter_whole_body_witness :
    extract_frontmatter ((("---\n").toList) ++ (("abc").toList))
      = ([], (("---\n").toList) ++ (("abc").toList))
    ∧ parse_frontmatter [] ("p") = .ok .null :=
  ⟨(unterminated_frontmatter_whole_body (("abc").toList) ("p") (by decide)).1,
   (unterminated_frontmatter_whole_body (("abc").toList) ("p") (by decide)).2.2⟩

/-! Claim C4: duplicate frontmatter keys are a hard parse error and leave a default page. -/

/-- The top level keys of the YAML model mapping, when every line is well formed. -/
def yamlKeys (s : List Char) : Option (List String) :=
  match yamlPairs (splitOnC ('\n') s) with
  | .ok kvs => some (kvs.map Prod.fst)
  | .error _ => none

theorem dupKey_some_of_not_nodup {kvs : List (String × Json)}
    (h : ¬ (kvs.map Prod.fst).Nodup) : ∃ k, dupKey kvs = some k := by
  induction kvs with
  | nil => simp at h
  | cons kv rest ih =>
    obtain ⟨k, v⟩ := kv
    by_cases hk : k ∈ rest.map Prod.fst
    · exact ⟨k, by simp [dupKey, hk]⟩
    · simp only [List.map_cons, List.nodup_cons, hk] at h
      have h2 : ¬ (rest.map Prod.fst).Nodup := by tauto
      obtain ⟨k2, hk2⟩ := ih h2
      exact ⟨k2, by simp [dupKey, hk, hk2]⟩

theorem serde_yaml_duplicate {s : List Char} {ks : List String}
    (h1 : yamlKeys s = some ks) (h2 : ¬ ks.Nodup) :
    ∃ k, serde_yaml_from_str s = .error (.duplicateKey k) := by
  unfold yamlKeys at h1
  cases hp : yamlPairs (splitOnC ('\n') s) with
  | error e => simp [hp] at h1
  | ok kvs =>
    simp [hp] at h1
    subst h1
    obtain ⟨k, hk⟩ := dupKey_some_of_not_nodup h2
    exact ⟨k, by simp [serde_yaml_from_str, hp, hk]⟩

theorem parse_file_eq (fs : FS) (path : String) (content : List Char)
    (h : readFile fs path = some content) :
    parse_file fs path =
      (if MAX_FILE_SIZE < content.length then
        .error (.fileTooLarge path content.length MAX_FILE_SIZE)
      else
        match parse_frontmatter (extract_frontmatter content).1 path with
        | .error e => .error e
        | .ok frontmatter =>
          .ok { path := path, title := extract_title frontmatter path,
                tags := extract_tags_from_frontmatter frontmatter,
                links := (extract_images_and_clean_links content frontmatter
                  (extract_wikilinks content)).2,
                images := (extract_images_and_clean_links content frontmatter
                  (extract_wikilinks content)).1,
                backlinks := [], frontmatter := frontmatter }) := by
  unfold parse_file
  rw [h]

/-- Claim C4: a markdown file whose frontmatter carries a duplicate key at the same mapping
level fails to parse with the distinguishable duplicate key metadata error kind, and after
indexing it still appears in the store as a page asset with empty metadata and a filename
stem derived title, together with a separate parse error entry for that path. -/
theorem duplicate_key_error_and_default_page (fs : FS) (idx : Indexer) (path : String)
    (content : List Char) (ks : List String)
    (hm : is_markdown_file path = true)
    (hr : readFile fs path = some content)
    (hs : content.length ≤ MAX_FILE_SIZE)
    (h1 : yamlKeys (extract_frontmatter content).1 = some ks)
    (h2 : ¬ ks.Nodup) :
    (∃ k, parse_frontmatter (extract_frontmatter content).1 path
        = .error (.yamlParseError (.duplicateKey k) path))
    ∧ alookup (update_file fs idx path).assets path
        = some (.page { defaultPage with path := path, title := file_stem_string path })
    ∧ ∃ msg, alookup (update_file fs idx path).parse_errors path = some msg := by
  have hne : (extract_frontmatter content).1 ≠ [] := by
    intro hnil
    rw [hnil] at h1
    have h0 : yamlKeys ([] : List Char) = some [] := rfl
    rw [h0] at h1
    have hks : ks = [] := (Option.some_inj.mp h1).symm
    exact h2 (hks ▸ List.nodup_nil)
  obtain ⟨k, hk⟩ := serde_yaml_duplicate h1 h2
  have hpf : parse_frontmatter (extract_frontmatter content).1 path
      = .error (.yamlParseError (.duplicateKey k) path) := by
    simp [parse_frontmatter, hne, hk]
  have hparse : parse_file fs path = .error (.yamlParseError (.duplicateKey k) path) := by
    rw [parse_file_eq fs path content hr]
    rw [if_neg (by omega)]
    rw [hpf]
  have hcanon : canonicalize fs path = some path := by
    simp [canonicalize, hr]
  have hpp : process_path fs path
      = { path := path,
          asset := some (.page { defaultPage with
            path := path, title := file_stem_string path }),
          error := some (errString (.yamlParseError (.duplicateKey k) path)) } := by
    simp [process_path, hcanon, hm, hparse]
  refine ⟨⟨k, hpf⟩, ?_, ?_⟩
  · unfold update_file applyScanResult
    rw [hpp]
    simp [applyError, applyAsset, alookup_aset]
  · refine ⟨errString (.yamlParseError (.duplicateKey k) path), ?_⟩
    unfold update_file applyScanResult
    rw [hpp]
    simp [applyError, applyAsset, alookup_aset]

theorem duplicate_key_error_and_default_page_witness :
    yamlKeys (extract_frontmatter (("---\ntags: a\ntags: b\n---\nBody").toList)).1
      = some [("tags"), ("tags")]
    ∧ (∃ k, parse_frontmatter
        (extract_frontmatter (("---\ntags: a\ntags: b\n---\nBody").toList)).1 ("dup.md")
        = .error (.yamlParseError (.duplicateKey k) ("dup.md")))
    ∧ alookup (update_file
        { files := [(("dup.md"), (("---\ntags: a\ntags: b\n---\nBody").toList))] } {}
        ("dup.md")).assets ("dup.md")
      = some (.page { defaultPage with
          path := ("dup.md"), title := file_stem_string ("dup.md") }) := by
  have h := duplicate_key_error_and_default_page
    { files := [(("dup.md"), (("---\ntags: a\ntags: b\n---\nBody").toList))] } {}
    ("dup.md") (("---\ntags: a\ntags: b\n---\nBody").toList) [("tags"), ("tags")]
    (by decide) (by decide) (by decide) (by decide) (by decide)
  exact ⟨by decide, h.1, h.2.1⟩

/-! Claim C5: image wikilinks leave the links list but only embeds feed the images list. -/

/-- Counterexample to claim C5: a plain wikilink to an image target is removed from the
links list by the extension filter but is NOT added to the images list, which stays empty,
against the claim that it always appears there. -/
theorem plain_image_wikilink_not_in_images_cex :
    extract_wikilinks (("[[cover.png]]").toList) = [{ target := ("cover.png") }]
    ∧ (extract_images_and_clean_links (("[[cover.png]]").toList) .null
        (extract_wikilinks (("[[cover.png]]").toList))).1 = [] := by
  decide

/-- Amended claim C5: every retained link survives the post filter, so its target neither
equals any extracted image reference ignoring ASCII case nor ends in a known image
extension; a plain wikilink to an image target like cover.png is removed from links but
appears in images only when written as an embed, so here images stays empty; and a plain
wikilink to a non image target appears in links and never in images. -/
theorem image_link_filter_amended :
    (∀ (content : List Char) (fm : Json) (links : List Link) (l : Link),
      l ∈ (extract_images_and_clean_links content fm links).2 →
        l ∈ links
        ∧ ((extract_images_and_clean_links content fm links).1.any
            (fun img => lowerCL img.data == lowerCL l.target.data)) = false
        ∧ (([("png"), ("jpg"), ("jpeg"), ("gif"), ("bmp"), ("svg"), ("webp"), ("tiff"),
            ("ico")] : List String).any
            (fun ext => isSuf (('.') :: ext.data) (lowerCL l.target.data))) = false)
    ∧ (extract_images_and_clean_links (("[[cover.png]]").toList) .null
        (extract_wikilinks (("[[cover.png]]").toList))).2 = []
    ∧ (extract_images_and_clean_links (("[[cover.png]]").toList) .null
        (extract_wikilinks (("[[cover.png]]").toList))).1 = []
    ∧ (extract_images_and_clean_links (("[[Some Page]]").toList) .null
        (extract_wikilinks (("[[Some Page]]").toList))).1 = []
    ∧ (extract_images_and_clean_links (("[[Some Page]]").toList) .null
        (extract_wikilinks (("[[Some Page]]").toList))).2
        = [{ target := ("Some Page") }] := by
  refine ⟨?_, by decide, by decide, by decide, by decide⟩
  intro content fm links l hmem
  simp only [extract_images_and_clean_links, List.mem_filter] at hmem
  obtain ⟨hml, hkeep⟩ := hmem
  refine ⟨hml, ?_, ?_⟩
  · simp only [extract_images_and_clean_links]
    by_cases h1 : (((match (fm.get ("image")).bind Json.as_str with
        | some img => if trimCL img.data = [] then [] else [img]
        | none => []) ++ scanEmbeds content ++ scanMdImages content
          ++ scanImgTags content).any
        (fun img => lowerCL img.data == lowerCL l.target.data)) = true
    · rw [if_pos h1] at hkeep
      simp at hkeep
    · simpa using h1
  · by_cases h1 : (((match (fm.get ("image")).bind Json.as_str with
        | some img => if trimCL img.data = [] then [] else [img]
        | none => []) ++ scanEmbeds content ++ scanMdImages content
          ++ scanImgTags content).any
        (fun img => lowerCL img.data == lowerCL l.target.data)) = true
    · rw [if_pos h1] at hkeep
      simp at hkeep
    · rw [if_neg h1] at hkeep
      by_cases h2 : (([("png"), ("jpg"), ("jpeg"), ("gif"), ("bmp"), ("svg"), ("webp"),
          ("tiff"), ("ico")] : List String).any
          (fun ext => isSuf (('.') :: ext.data) (lowerCL l.target.data))) = true
      · rw [if_pos h2] at hkeep
        simp at hkeep
      · simpa using h2

/-- Witness for the quantified part of image_link_filter_amended at a concrete retained
link. -/
theorem image_link_filter_amended_witness :
    ({ target := ("x") } : Link) ∈ (extract_images_and_clean_links [] .null
        [{ target := ("x") }]).2
    ∧ ({ target := ("x") } : Link) ∈ [({ target := ("x") } : Link)] := by
  refine ⟨by decide, ?_⟩
  exact (image_link_filter_amended.1 [] .null [{ target := ("x") }] { target := ("x") }
    (by decide)).1

/-! Claims C2 and C7: circular transclusion detection and bounded recursion. -/

/-- Step rule of the insert loop when no insert match remains. -/
theorem render_inserts_none (fs : FS) (idx : Indexer) (f : Nat) (st : List String)
    (t : List Char) (h : findInsert t = none) : render_inserts fs idx f st t = .ok t := by
  rw [render_inserts]
  split <;> simp_all

theorem render_inserts_some (fs : FS) (idx : Indexer) (f : Nat) (st : List String)
    (t pre tgt attrs rest : List Char)
    (h : findInsert t = some (pre, tgt, attrs, rest)) :
    render_inserts fs idx f st t =
      match process_single_insert fs idx f st tgt attrs with
      | .error e => .error e
      | .ok html =>
        match render_inserts fs idx f st rest with
        | .error e => .error e
        | .ok restHtml => .ok (pre ++ html ++ restHtml) := by
  rw [render_inserts]
  rw [h]

theorem process_insert_circular (fs : FS) (idx : Indexer) (f : Nat) (st : List String)
    (tgt attrs : List Char) (p : String)
    (hres : alookup idx.link_resolver (lowerStr (String.mk tgt)) = some p)
    (hmem : p ∈ st) :
    process_single_insert fs idx f st tgt attrs = .error (.circularInsert p) := by
  rw [process_single_insert]
  rw [hres]
  simp only [hmem, if_pos]

theorem process_insert_not_found (fs : FS) (idx : Indexer) (f : Nat) (st : List String)
    (tgt attrs : List Char)
    (hres : alookup idx.link_resolver (lowerStr (String.mk tgt)) = none) :
    process_single_insert fs idx f st tgt attrs = .ok (errorBoxNotFound tgt) := by
  rw [process_single_insert]
  rw [hres]

theorem process_insert_step (fs : FS) (idx : Indexer) (f : Nat) (st : List String)
    (tgt attrs : List Char) (p : String) (content : List Char)
    (hres : alookup idx.link_resolver (lowerStr (String.mk tgt)) = some p)
    (hmem : ¬ p ∈ st)
    (hread : readFile fs p = some content) :
    process_single_insert fs idx (Nat.succ f) st tgt attrs
      = match render_inserts fs idx f (st ++ [p]) (extract_frontmatter content).2 with
        | .error e => .error e
        | .ok rendered_html =>
          if (parseAttrs attrs).2.2.2 then .ok rendered_html
          else .ok (insertContainer p (parseAttrs attrs).1 (parseAttrs attrs).2.1
            (parseAttrs attrs).2.2.1 rendered_html) := by
  rw [process_single_insert]
  split
  · rename_i heq
    rw [hres] at heq
    cases heq
  · rename_i insert_path heq
    rw [hres] at heq
    injection heq with heq2
    subst heq2
    rw [if_neg hmem]
    split
    · rename_i heq3
      rw [hread] at heq3
      cases heq3
    · rename_i content2 heq3
      rw [hread] at heq3
      injection heq3 with heq4
      subst heq4
      rfl


/-- Filesystem of the circular transclusion counterexample: one page whose body transcludes
itself. -/
def fsC2 : FS := { files := [(("A.md"), (("\x7b\x7binsert: A\x7d\x7d").toList))] }

def idxC2 : Indexer := { link_resolver := [(("a"), ("A.md"))] }

/-- Counterexample to claim C2: rendering the self transcluding page does not succeed with
an inline error box; the circular transclusion is detected and the whole render aborts with
the circular insert error. -/
theorem circular_insert_aborts_render_cex :
    render_inserts fsC2 idxC2 2 [] (("\x7b\x7binsert: A\x7d\x7d").toList)
      = .error (.circularInsert ("A.md")) := by
  have h1 : findInsert (("\x7b\x7binsert: A\x7d\x7d").toList)
      = some ([], ("A").toList, [], []) := by decide
  have hres : alookup idxC2.link_resolver (lowerStr (String.mk (("A").toList)))
      = some ("A.md") := by decide
  have hread : readFile fsC2 ("A.md") = some (("\x7b\x7binsert: A\x7d\x7d").toList) := by
    decide
  have hbody : (extract_frontmatter (("\x7b\x7binsert: A\x7d\x7d").toList)).2
      = (("\x7b\x7binsert: A\x7d\x7d").toList) := by decide
  have hinner : render_inserts fsC2 idxC2 1 [("A.md")] (("\x7b\x7binsert: A\x7d\x7d").toList)
      = .error (.circularInsert ("A.md")) := by
    rw [render_inserts_some fsC2 idxC2 1 [("A.md")] _ _ _ _ _ h1]
    rw [process_insert_circular fsC2 idxC2 1 [("A.md")] _ _ _ hres (by decide)]
  have houter : process_single_insert fsC2 idxC2 2 [] (("A").toList) []
      = .error (.circularInsert ("A.md")) := by
    rw [show (2 : Nat) = Nat.succ 1 from rfl]
    rw [process_insert_step fsC2 idxC2 1 [] _ _ _ _ hres (by decide) hread]
    rw [hbody]
    simp only [List.nil_append]
    rw [hinner]
  rw [render_inserts_some fsC2 idxC2 2 [] _ _ _ _ _ h1]
  rw [houter]

end Chronicler

namespace Chronicler


/-- Amended claim C2: a transclusion whose resolved target is already on the in progress
rendering stack is detected before any recursive work, but it raises the CircularInsert
error which propagates through the insert loop and ABORTS the whole render with an error
result instead of degrading to an inline error box; by contrast an unresolvable target does
degrade to an inline error box without aborting. -/
theorem circular_insert_error_propagates (fs : FS) (idx : Indexer) (f : Nat)
    (stack : List String) :
    (∀ (target attrs : List Char) (p : String),
      alookup idx.link_resolver (lowerStr (String.mk target)) = some p → p ∈ stack →
        process_single_insert fs idx f stack target attrs = .error (.circularInsert p))
    ∧ (∀ (text pre target attrs restText : List Char) (p : String),
        findInsert text = some (pre, target, attrs, restText) →
        alookup idx.link_resolver (lowerStr (String.mk target)) = some p → p ∈ stack →
        render_inserts fs idx f stack text = .error (.circularInsert p))
    ∧ (∀ (target attrs : List Char),
        alookup idx.link_resolver (lowerStr (String.mk target)) = none →
        process_single_insert fs idx f stack target attrs
          = .ok (errorBoxNotFound target)) := by
  refine ⟨?_, ?_, ?_⟩
  · intro target attrs p hres hmem
    exact process_insert_circular fs idx f stack target attrs p hres hmem
  · intro text pre target attrs restText p hfi hres hmem
    rw [render_inserts_some fs idx f stack text pre target attrs restText hfi]
    rw [process_insert_circular fs idx f stack target attrs p hres hmem]
  · intro target attrs hres
    exact process_insert_not_found fs idx f stack target attrs hres

/-- Witness for circular_insert_error_propagates at the concrete self transcluding vault. -/
theorem circular_insert_error_propagates_witness :
    process_single_insert fsC2 idxC2 5 [("A.md")] (("A").toList) []
      = .error (.circularInsert ("A.md")) :=
  (circular_insert_error_propagates fsC2 idxC2 5 [("A.md")]).1 (("A").toList) [] ("A.md")
    (by decide) (by decide)

/-- Step rule of process_single_insert for an indexed but unreadable target. -/
theorem process_insert_unreadable (fs : FS) (idx : Indexer) (f : Nat) (st : List String)
    (tgt attrs : List Char) (p : String)
    (hres : alookup idx.link_resolver (lowerStr (String.mk tgt)) = some p)
    (hmem : ¬ p ∈ st)
    (hread : readFile fs p = none) :
    process_single_insert fs idx f st tgt attrs = .ok (errorBoxUnreadable p) := by
  rw [process_single_insert]
  split
  · rename_i heq
    rw [hres] at heq
    cases heq
  · rename_i insert_path heq
    rw [hres] at heq
    injection heq with heq2
    subst heq2
    rw [if_neg hmem]
    split
    · rfl
    · rename_i content2 heq3
      rw [hread] at heq3
      cases heq3

def resolverTargets (idx : Indexer) : List String := (idx.link_resolver.map Prod.snd).dedup

def freeTargets (idx : Indexer) (stack : List String) : Nat :=
  ((resolverTargets idx).filter (fun p => decide (¬ p ∈ stack))).length

theorem filter_mono_length (l : List String) (p q : String → Bool)
    (h : ∀ x, p x = true → q x = true) :
    (l.filter p).length ≤ (l.filter q).length := by
  induction l with
  | nil => simp
  | cons x xs ih =>
    rw [List.filter_cons, List.filter_cons]
    by_cases hp : p x = true
    · rw [if_pos hp, if_pos (h x hp)]
      simpa using ih
    · rw [if_neg hp]
      by_cases hq : q x = true
      · rw [if_pos hq]
        simp only [List.length_cons]
        omega
      · rw [if_neg hq]
        exact ih

theorem filter_strict_length (l : List String) (p q : String → Bool)
    (h : ∀ x, p x = true → q x = true) (a : String) (ha : a ∈ l)
    (hpa : p a = false) (hqa : q a = true) :
    (l.filter p).length < (l.filter q).length := by
  induction l with
  | nil => simp at ha
  | cons x xs ih =>
    rw [List.filter_cons, List.filter_cons]
    rcases List.mem_cons.mp ha with hax | hax
    · subst hax
      rw [if_neg (by simp [hpa]), if_pos (by simp [hqa])]
      simp only [List.length_cons]
      have := filter_mono_length xs p q h
      omega
    · by_cases hp : p x = true
      · rw [if_pos hp, if_pos (h x hp)]
        simpa using ih hax
      · rw [if_neg hp]
        by_cases hq : q x = true
        · rw [if_pos hq]
          simp only [List.length_cons]
          have := ih hax
          omega
        · rw [if_neg hq]
          exact ih hax

theorem freeTargets_decrease {idx : Indexer} {stack : List String} {p : String}
    (hpm : p ∈ resolverTargets idx) (hmem : ¬ p ∈ stack) :
    freeTargets idx (stack ++ [p]) < freeTargets idx stack := by
  unfold freeTargets
  refine filter_strict_length (resolverTargets idx) _ _ ?_ p hpm ?_ ?_
  · intro x hx
    simp only [decide_eq_true_eq] at hx ⊢
    intro hcon
    exact hx (List.mem_append_left _ hcon)
  · simp
  · simp [hmem]

theorem resolver_target_mem {idx : Indexer} {key : String} {p : String}
    (h : alookup idx.link_resolver key = some p) : p ∈ resolverTargets idx := by
  unfold resolverTargets
  exact List.mem_dedup.mpr (alookup_mem_values h)



/-- Fuel values strictly above the number of resolvable pages not on the stack all yield the
same result, for the single insert processor and for the insert loop together. -/
theorem render_fuel_eq (fs : FS) (idx : Indexer) : ∀ (f : Nat),
    (∀ (g : Nat) (stack : List String) (target attrs : List Char),
      freeTargets idx stack < f → freeTargets idx stack < g →
      process_single_insert fs idx f stack target attrs
        = process_single_insert fs idx g stack target attrs)
    ∧ (∀ (g : Nat) (stack : List String) (text : List Char),
      freeTargets idx stack < f → freeTargets idx stack < g →
      render_inserts fs idx f stack text = render_inserts fs idx g stack text) := by
  intro f
  induction f using Nat.strong_induction_on with
  | _ f IH =>
    have hproc : ∀ (g : Nat) (stack : List String) (target attrs : List Char),
        freeTargets idx stack < f → freeTargets idx stack < g →
        process_single_insert fs idx f stack target attrs
          = process_single_insert fs idx g stack target attrs := by
      intro g stack target attrs hf hg
      cases hres : alookup idx.link_resolver (lowerStr (String.mk target)) with
      | none =>
        rw [process_insert_not_found fs idx f stack target attrs hres,
          process_insert_not_found fs idx g stack target attrs hres]
      | some p =>
        by_cases hmem : p ∈ stack
        · rw [process_insert_circular fs idx f stack target attrs p hres hmem,
            process_insert_circular fs idx g stack target attrs p hres hmem]
        · cases hread : readFile fs p with
          | none =>
            rw [process_insert_unreadable fs idx f stack target attrs p hres hmem hread,
              process_insert_unreadable fs idx g stack target attrs p hres hmem hread]
          | some content =>
            cases f with
            | zero => exact absurd hf (by omega)
            | succ f2 =>
              cases g with
              | zero => exact absurd hg (by omega)
              | succ g2 =>
                rw [process_insert_step fs idx f2 stack target attrs p content hres hmem hread,
                  process_insert_step fs idx g2 stack target attrs p content hres hmem hread]
                have hpmem : p ∈ resolverTargets idx := resolver_target_mem hres
                have hdec : freeTargets idx (stack ++ [p]) < freeTargets idx stack :=
                  freeTargets_decrease hpmem hmem
                have hf2 : freeTargets idx (stack ++ [p]) < f2 := by omega
                have hg2 : freeTargets idx (stack ++ [p]) < g2 := by omega
                rw [(IH f2 (by omega)).2 g2 (stack ++ [p])
                  (extract_frontmatter content).2 hf2 hg2]
    have hrender : ∀ (g : Nat) (stack : List String) (text : List Char),
        freeTargets idx stack < f → freeTargets idx stack < g →
        render_inserts fs idx f stack text = render_inserts fs idx g stack text := by
      intro g stack text hf hg
      have key : ∀ (n : Nat) (text2 : List Char), text2.length < n →
          render_inserts fs idx f stack text2 = render_inserts fs idx g stack text2 := by
        intro n
        induction n with
        | zero => intro t2 h2; omega
        | succ n ihn =>
          intro t2 hlen
          cases hfi : findInsert t2 with
          | none =>
            rw [render_inserts_none fs idx f stack t2 hfi,
              render_inserts_none fs idx g stack t2 hfi]
          | some v =>
            obtain ⟨pre, target, attrs, restText⟩ := v
            rw [render_inserts_some fs idx f stack t2 pre target attrs restText hfi,
              render_inserts_some fs idx g stack t2 pre target attrs restText hfi]
            rw [hproc g stack target attrs hf hg]
            have hrest : restText.length < n := by
              have := findInsert_rest_lt hfi
              omega
            rw [ihn restText hrest]
      exact key (text.length + 1) text (by omega)
    exact ⟨hproc, hrender⟩

theorem render_no_fuel_error (fs : FS) (idx : Indexer) : ∀ (f : Nat),
    (∀ (stack : List String) (target attrs : List Char),
      freeTargets idx stack < f →
      process_single_insert fs idx f stack target attrs ≠ .error .fuelExhausted)
    ∧ (∀ (stack : List String) (text : List Char),
      freeTargets idx stack < f →
      render_inserts fs idx f stack text ≠ .error .fuelExhausted) := by
  intro f
  induction f using Nat.strong_induction_on with
  | _ f IH =>
    have hproc : ∀ (stack : List String) (target attrs : List Char),
        freeTargets idx stack < f →
        process_single_insert fs idx f stack target attrs ≠ .error .fuelExhausted := by
      intro stack target attrs hf
      cases hres : alookup idx.link_resolver (lowerStr (String.mk target)) with
      | none =>
        rw [process_insert_not_found fs idx f stack target attrs hres]
        simp
      | some p =>
        by_cases hmem : p ∈ stack
        · rw [process_insert_circular fs idx f stack target attrs p hres hmem]
          simp
        · cases hread : readFile fs p with
          | none =>
            rw [process_insert_unreadable fs idx f stack target attrs p hres hmem hread]
            simp
          | some content =>
            cases f with
            | zero => exact absurd hf (by omega)
            | succ f2 =>
              rw [process_insert_step fs idx f2 stack target attrs p content hres hmem hread]
              have hpmem : p ∈ resolverTargets idx := resolver_target_mem hres
              have hdec : freeTargets idx (stack ++ [p]) < freeTargets idx stack :=
                freeTargets_decrease hpmem hmem
              have hf2 : freeTargets idx (stack ++ [p]) < f2 := by omega
              cases hR : render_inserts fs idx f2 (stack ++ [p])
                  (extract_frontmatter content).2 with
              | error e =>
                have hne := (IH f2 (by omega)).2 (stack ++ [p])
                  (extract_frontmatter content).2 hf2
                rw [hR] at hne
                simpa using hne
              | ok rendered =>
                by_cases hb : (parseAttrs attrs).2.2.2 = true <;> simp [hb]
    have hrender : ∀ (stack : List String) (text : List Char),
        freeTargets idx stack < f →
        render_inserts fs idx f stack text ≠ .error .fuelExhausted := by
      intro stack text hf
      have key : ∀ (n : Nat) (text2 : List Char), text2.length < n →
          render_inserts fs idx f stack text2 ≠ .error .fuelExhausted := by
        intro n
        induction n with
        | zero => intro t2 h2; omega
        | succ n ihn =>
          intro t2 hlen
          cases hfi : findInsert t2 with
          | none =>
            rw [render_inserts_none fs idx f stack t2 hfi]
            simp
          | some v =>
            obtain ⟨pre, target, attrs, restText⟩ := v
            rw [render_inserts_some fs idx f stack t2 pre target attrs restText hfi]
            cases hP : process_single_insert fs idx f stack target attrs with
            | error e =>
              have hne := hproc stack target attrs hf
              rw [hP] at hne
              simpa using hne
            | ok html =>
              have hrest : restText.length < n := by
                have := findInsert_rest_lt hfi
                omega
              cases hR : render_inserts fs idx f stack restText with
              | error e =>
                have hne := ihn restText hrest
                rw [hR] at hne
                simpa using hne
              | ok restHtml => simp
      exact key (text.length + 1) text (by omega)
    exact ⟨hproc, hrender⟩

/-- Claim C7: rendering with transclusions terminates with a depth bound; any two recursion
depth budgets strictly above the number of distinct resolvable pages off the stack yield the
same render result, and the out of fuel marker is unreachable, because a duplicate push is
rejected before any recursive work and every push removes one resolvable page from the free
set. -/
theorem transclusion_fuel_irrelevant (fs : FS) (idx : Indexer) (stack : List String)
    (text : List Char) (f g : Nat)
    (hf : freeTargets idx stack < f) (hg : freeTargets idx stack < g) :
    render_inserts fs idx f stack text = render_inserts fs idx g stack text
    ∧ render_inserts fs idx f stack text ≠ .error .fuelExhausted :=
  ⟨(render_fuel_eq fs idx f).2 g stack text hf hg,
   (render_no_fuel_error fs idx f).2 stack text hf⟩

theorem transclusion_fuel_irrelevant_witness :
    render_inserts fsC2 idxC2 2 [] (("hello").toList)
      = render_inserts fsC2 idxC2 3 [] (("hello").toList)
    ∧ render_inserts fsC2 idxC2 2 [] (("hello").toList) ≠ .error .fuelExhausted :=
  transclusion_fuel_irrelevant fsC2 idxC2 [] (("hello").toList) 2 3 (by decide) (by decide)

end Chronicler
